import Mathlib

set_option linter.unusedSectionVars false

/-!
# Verification of `lazymap` (waylen888/lazymap)

A shallow embedding of `src/lazymap.go`: a lazily populated, thread-safe
map `Map[K, V]` with

* `LoadOrCtor(ctx, key, fn)` — return the cached value for `key`, or invoke
  the constructor `fn` once and cache its result (lines 49–95);
* `Delete(key)` — remove the entry, cancel its watcher and invoke the
  `OnDelete` callback (lines 106–123);
* `observeEntry(key, e)` — the per-entry background expiry watcher spawned
  when `Lifetime != 0` (lines 97–104).

Two models are developed, both translated from the Go source:

* a sequential model (`CacheState`, `loadOrCtor`, `deleteKey`, `runOp`):
  each public operation as a pure state transformer emitting the observable
  events (constructor invocations, `OnDelete` callbacks).  Timer expiry and
  watcher exit become explicit nondeterministic operations of the trace
  language `Op`.
* a concurrent small-step model for a single key (`Co.CState`, `Co.CStep`):
  `LoadOrCtor` is decomposed into its atomic sections exactly at the points
  where `m.mu` is released, so that any interleaving of any number of
  callers is a path of the step relation.  This settles the coalescing
  guarantee.
-/

namespace LazyMap

/-- A Go `error` as returned by the cache: either the package sentinel
`ErrCtorNotProvided` (lazymap.go line 44) or an error value produced by a
user constructor.  `Option (GoError E)` plays the role of a nilable Go
`error`. -/
inductive GoError (E : Type) where
  | ctorNotProvided
  | user (e : E)
deriving DecidableEq

/-- A Go `context.Context` as seen by the cache: `context.Background()` or
any other context value.  `LoadOrCtor` replaces a nil context by the
background context (lazymap.go lines 50–52); nil is modelled by `Option`
at the call site. -/
inductive GoCtx (C : Type) where
  | background
  | other (c : C)
deriving DecidableEq

/-- Observable events of a run.  `ctorCall eid k` records one invocation of
the user constructor for generation `eid` of key `k` (lazymap.go line 81);
`onDelete eid k v` records one invocation of the `m.OnDelete` callback with
arguments `(k, v)`, for the entity of heap id `eid` (lazymap.go line 122). -/
inductive Event (K V : Type) where
  | ctorCall (eid : Nat) (k : K)
  | onDelete (eid : Nat) (k : K) (v : V)
deriving DecidableEq

/-- The `entity[V]` record of lazymap.go lines 26–33, one per generation of
a key.  `val`/`err` are the constructor's result (`val` starts at the Go
zero value, modelled by `default`); `hasTimer` is `timer != nil`;
`cancelled` records that `cacenl` (the `context.CancelFunc`) has been
invoked; `done` records that `wg.Done()` has run (the completion signal);
`watcher` records that the `observeEntry` goroutine is running. -/
structure Entity (V E : Type) where
  val : V
  err : Option (GoError E)
  hasTimer : Bool
  cancelled : Bool
  done : Bool
  watcher : Bool
deriving DecidableEq

/-- The state of a `Map[K, V]` (lazymap.go lines 12–23) together with an
explicit heap of entities, so that an entity unlinked from the map (as on
construction failure, or deletion during a pending construction) is still
addressable, exactly as a Go pointer keeps it reachable.  `entries` is the
Go map `m.m : map[K]*entity[V]`, binding each key to a heap id;
`lifetime` is `m.Lifetime` (0 means no expiry); `hasOnDelete` is
`m.OnDelete != nil`. -/
structure CacheState (K V E : Type) where
  lifetime : Nat
  hasOnDelete : Bool
  heap : List (Entity V E)
  entries : List (K × Nat)
deriving DecidableEq

variable {K V E C : Type} [DecidableEq K] [Inhabited V]

/-- A freshly allocated `new(entity[V])` (lazymap.go line 74): all fields
at their Go zero values. -/
def freshEntity (V E : Type) [Inhabited V] : Entity V E :=
  { val := default, err := none, hasTimer := false, cancelled := false
    done := false, watcher := false }

/-- Look up the heap id bound to `k` in a binding list. -/
def lookupL (l : List (K × Nat)) (k : K) : Option Nat :=
  (l.find? fun p => decide (p.1 = k)).map (·.2)

/-- `m.m[key]` — look up the heap id bound to `key`. -/
def lookupKey (st : CacheState K V E) (k : K) : Option Nat :=
  lookupL st.entries k

/-- Go `delete(m.m, key)`: drop every binding of `k` (there is at most
one). -/
def removeBinding (l : List (K × Nat)) (k : K) : List (K × Nat) :=
  l.filter fun p => decide (p.1 ≠ k)

/-- `m.m[key] = e`: bind `k` to heap id `eid`, replacing any old binding. -/
def insertBinding (l : List (K × Nat)) (k : K) (eid : Nat) : List (K × Nat) :=
  (k, eid) :: removeBinding l k

/-- Mutate the entity at heap id `eid` in place (a Go write through the
`*entity[V]` pointer). -/
def updateEnt (st : CacheState K V E) (eid : Nat) (f : Entity V E → Entity V E) :
    CacheState K V E :=
  match st.heap[eid]? with
  | some e => { st with heap := st.heap.set eid (f e) }
  | none => st

/-- `Map.Delete` (lazymap.go lines 106–123): under the lock, look up the
entry; if absent, return.  Otherwise call `e.cacenl()`, remove the binding,
release the lock, and invoke `m.OnDelete(key, e.val)` if configured.  The
`OnDelete` invocation is emitted as an event; it runs after the binding is
removed, which is why the returned state already lacks `key`. -/
def deleteKey (st : CacheState K V E) (k : K) : CacheState K V E × List (Event K V) :=
  match lookupKey st k with
  | none => (st, [])
  | some eid =>
    match st.heap[eid]? with
    | none => (st, [])
    | some e =>
      ({ st with
          heap := st.heap.set eid { e with cancelled := true }
          entries := removeBinding st.entries k },
       if st.hasOnDelete then [Event.onDelete eid k e.val] else [])

/-- The first critical section of `LoadOrCtor` (lazymap.go lines 60–79):
under the lock, if `key` is bound, reset its timer (no state change in the
model: the timer stays allocated) and — after `wg.Wait()` — return the
stored `(val, err)` pair (`some` result).  If `key` is unbound, allocate a
fresh entity, bind the key to it and return `none` together with the new
state and the fresh heap id; the constructor still has to run. -/
def loadOrCtorBegin (st : CacheState K V E) (k : K) :
    Option (V × Option (GoError E)) × CacheState K V E × Nat :=
  match lookupKey st k with
  | some eid =>
    match st.heap[eid]? with
    | some e => (some (e.val, e.err), st, eid)
    | none => (some (default, none), st, eid)
  | none =>
    let eid := st.heap.length
    (none,
     { st with
        heap := st.heap ++ [freshEntity V E]
        entries := insertBinding st.entries k eid },
     eid)

/-- The tail of `LoadOrCtor` after the constructor returned (lazymap.go
lines 81–95): write `(val, err)` through the entity pointer; on error,
re-acquire the lock and `delete(m.m, key)`; on success with
`m.Lifetime != 0`, create the timer and spawn the `observeEntry` watcher;
finally `wg.Done()` and return the pair. -/
def loadOrCtorFinish (st : CacheState K V E) (k : K) (eid : Nat)
    (res : V × Option (GoError E)) : (V × Option (GoError E)) × CacheState K V E :=
  match st.heap[eid]? with
  | none => (res, st)
  | some e0 =>
    let e1 := { e0 with val := res.1, err := res.2 }
    let st1 := { st with heap := st.heap.set eid e1 }
    match res.2 with
    | some _ =>
      let st2 := { st1 with entries := removeBinding st1.entries k }
      (res, updateEnt st2 eid fun e => { e with done := true })
    | none =>
      let st2 :=
        if st1.lifetime ≠ 0 then
          updateEnt st1 eid fun e => { e with hasTimer := true, watcher := true }
        else st1
      (res, updateEnt st2 eid fun e => { e with done := true })

/-- `Map.LoadOrCtor` (lazymap.go lines 49–95) run to completion with a pure
constructor `fn` (`none` models a nil `fn`).  A nil context is replaced by
`GoCtx.background` and the effective context is passed to the constructor
on the miss path only.  Returns the `(value, error)` pair, the new state,
and the emitted events. -/
def loadOrCtor (st : CacheState K V E) (ctx : Option (GoCtx C)) (k : K)
    (fn : Option (GoCtx C → K → V × Option (GoError E))) :
    (V × Option (GoError E)) × CacheState K V E × List (Event K V) :=
  match fn with
  | none => ((default, some GoError.ctorNotProvided), st, [])
  | some f =>
    let ctxEff := ctx.getD GoCtx.background
    match loadOrCtorBegin st k with
    | (some res, st1, _) => (res, st1, [])
    | (none, st1, eid) =>
      let (res, st2) := loadOrCtorFinish st1 k eid (f ctxEff k)
      (res, st2, [Event.ctorCall eid k])

/-- One atomic operation of a sequential trace.  `load` and `del` are the
public API; `fire key eid` is the `observeEntry` watcher of entity `eid`
winning the race on `timer.C` and calling `m.Delete(key)` (lazymap.go
lines 98–100); `watchExit eid` is that watcher observing `ctx.Done()` and
exiting (line 101).  A timer can only fire for an entity whose timer and
watcher exist and whose context is not yet cancelled. -/
inductive Op (K V E C : Type) where
  | load (ctx : Option (GoCtx C)) (k : K)
      (fn : Option (GoCtx C → K → V × Option (GoError E)))
  | del (k : K)
  | fire (k : K) (eid : Nat)
  | watchExit (eid : Nat)

/-- Run one operation. -/
def runOp (st : CacheState K V E) : Op K V E C → CacheState K V E × List (Event K V)
  | Op.load ctx k fn =>
    let (_, st1, evs) := loadOrCtor st ctx k fn
    (st1, evs)
  | Op.del k => deleteKey st k
  | Op.fire k eid =>
    match st.heap[eid]? with
    | some e =>
      if e.hasTimer && e.watcher && !e.cancelled then
        let (st1, evs) := deleteKey st k
        (updateEnt st1 eid fun e => { e with watcher := false }, evs)
      else (st, [])
    | none => (st, [])
  | Op.watchExit eid =>
    match st.heap[eid]? with
    | some e =>
      if e.cancelled && e.watcher then
        (updateEnt st eid fun e => { e with watcher := false }, [])
      else (st, [])
    | none => (st, [])

/-- Run a list of operations, accumulating events. -/
def run (st : CacheState K V E) : List (Op K V E C) → CacheState K V E × List (Event K V)
  | [] => (st, [])
  | op :: ops =>
    let (st1, evs1) := runOp st op
    let (st2, evs2) := run st1 ops
    (st2, evs1 ++ evs2)

/-- The empty cache produced by `New(lifetime)` (lazymap.go lines 36–40),
with an `OnDelete` callback installed when `hod` is true. -/
def initCache (K V E : Type) (lifetime : Nat) (hod : Bool) : CacheState K V E :=
  { lifetime := lifetime, hasOnDelete := hod, heap := [], entries := [] }

/-! ## Lookup lemmas for binding lists -/

theorem lookupL_cons (p : K × Nat) (t : List (K × Nat)) (k : K) :
    lookupL (p :: t) k = if p.1 = k then some p.2 else lookupL t k := by
  by_cases h : p.1 = k
  · simp [lookupL, List.find?_cons_of_pos, h]
  · simp [lookupL, List.find?_cons_of_neg, h]

theorem removeBinding_cons (p : K × Nat) (t : List (K × Nat)) (k : K) :
    removeBinding (p :: t) k =
      if p.1 = k then removeBinding t k else p :: removeBinding t k := by
  by_cases h : p.1 = k
  · simp [removeBinding, List.filter_cons, h]
  · simp [removeBinding, List.filter_cons, h]

theorem lookupL_insert_self (l : List (K × Nat)) (k : K) (eid : Nat) :
    lookupL (insertBinding l k eid) k = some eid := by
  simp [insertBinding, lookupL_cons]

theorem lookupL_remove_self (l : List (K × Nat)) (k : K) :
    lookupL (removeBinding l k) k = none := by
  induction l with
  | nil => rfl
  | cons p t ih =>
    rw [removeBinding_cons]
    by_cases h : p.1 = k
    · simpa [h] using ih
    · simpa [h, lookupL_cons] using ih

theorem lookupL_remove_ne (l : List (K × Nat)) (k k' : K) (h : k' ≠ k) :
    lookupL (removeBinding l k) k' = lookupL l k' := by
  induction l with
  | nil => rfl
  | cons p t ih =>
    rw [removeBinding_cons, lookupL_cons]
    by_cases hp : p.1 = k
    · have hp' : ¬ p.1 = k' := fun hc => h (hc ▸ hp)
      simpa [hp, hp', Ne.symm h] using ih
    · by_cases hq : p.1 = k'
      · simp [hp, hq, h, lookupL_cons]
      · simpa [hp, hq, h, lookupL_cons] using ih

theorem lookupL_insert_ne (l : List (K × Nat)) (k k' : K) (eid : Nat) (h : k' ≠ k) :
    lookupL (insertBinding l k eid) k' = lookupL l k' := by
  have h' : ¬ (k = k') := fun hc => h hc.symm
  rw [insertBinding, lookupL_cons]
  simpa [h'] using lookupL_remove_ne l k k' h

/-! ## Path characterizations of `LoadOrCtor` and `Delete` -/

/-- Writing twice through the pointer of the entity at `eid`: `updateEnt`
after a `set` collapses to a single `set`. -/
theorem updateEnt_set (st : CacheState K V E) (eid : Nat) (a : Entity V E)
    (f : Entity V E → Entity V E) (h : eid < st.heap.length) :
    updateEnt { st with heap := st.heap.set eid a } eid f =
      { st with heap := st.heap.set eid (f a) } := by
  unfold updateEnt
  dsimp only
  rw [List.getElem?_set_eq (by simpa using h)]
  dsimp only
  rw [List.set_set]

/-- On a hit, `LoadOrCtor` returns the stored pair, leaves the state
unchanged and invokes nothing. -/
theorem loadOrCtor_hit (st : CacheState K V E) (ctx : Option (GoCtx C)) (k : K)
    (f : GoCtx C → K → V × Option (GoError E)) (eid : Nat) (e : Entity V E)
    (hl : lookupKey st k = some eid) (hg : st.heap[eid]? = some e) :
    loadOrCtor st ctx k (some f) = ((e.val, e.err), st, []) := by
  unfold loadOrCtor loadOrCtorBegin
  rw [hl]
  dsimp only
  rw [hg]

/-- On a miss, the first critical section allocates a fresh entity at heap
id `st.heap.length` and binds the key to it. -/
theorem loadOrCtorBegin_miss (st : CacheState K V E) (k : K)
    (hl : lookupKey st k = none) :
    loadOrCtorBegin st k =
      (none,
       { st with
          heap := st.heap ++ [freshEntity V E]
          entries := insertBinding st.entries k st.heap.length },
       st.heap.length) := by
  unfold loadOrCtorBegin
  rw [hl]

/-- The constructor-error tail of `LoadOrCtor`: the pair is written through
the entity pointer, the binding is dropped, `done` is set, and the error is
returned. -/
theorem loadOrCtorFinish_err (st : CacheState K V E) (k : K) (eid : Nat)
    (e0 : Entity V E) (v : V) (er : GoError E) (hg : st.heap[eid]? = some e0) :
    loadOrCtorFinish st k eid (v, some er) =
      ((v, some er),
       { st with
          heap := st.heap.set eid { e0 with val := v, err := some er, done := true }
          entries := removeBinding st.entries k }) := by
  obtain ⟨hlt, -⟩ := List.getElem?_eq_some.1 hg
  unfold loadOrCtorFinish
  rw [hg]
  dsimp only
  rw [updateEnt_set { st with entries := removeBinding st.entries k } eid _ _ hlt]

/-- The constructor-success tail of `LoadOrCtor`: the pair is written, a
timer and watcher are created exactly when `lifetime ≠ 0`, `done` is set,
and the pair is returned; the binding is kept. -/
theorem loadOrCtorFinish_ok (st : CacheState K V E) (k : K) (eid : Nat)
    (e0 : Entity V E) (v : V) (hg : st.heap[eid]? = some e0) :
    loadOrCtorFinish st k eid (v, none) =
      ((v, none),
       { st with
          heap := st.heap.set eid
            (if st.lifetime ≠ 0 then
              { e0 with val := v, err := none, hasTimer := true
                        watcher := true, done := true }
             else { e0 with val := v, err := none, done := true }) }) := by
  obtain ⟨hlt, -⟩ := List.getElem?_eq_some.1 hg
  unfold loadOrCtorFinish
  rw [hg]
  dsimp only
  by_cases hlife : st.lifetime ≠ 0
  · rw [if_pos hlife, if_pos hlife,
      updateEnt_set st eid _ _ hlt,
      updateEnt_set st eid _ _ hlt]
  · rw [if_neg hlife, if_neg hlife, updateEnt_set st eid _ _ hlt]

/-- On a miss, `LoadOrCtor` runs the constructor on the effective context
and finishes from the freshly extended state, emitting one `ctorCall`. -/
theorem loadOrCtor_miss (st : CacheState K V E) (ctx : Option (GoCtx C)) (k : K)
    (f : GoCtx C → K → V × Option (GoError E)) (hl : lookupKey st k = none) :
    loadOrCtor st ctx k (some f) =
      ((loadOrCtorFinish
          { st with
             heap := st.heap ++ [freshEntity V E]
             entries := insertBinding st.entries k st.heap.length }
          k st.heap.length (f (ctx.getD GoCtx.background) k)).1,
       (loadOrCtorFinish
          { st with
             heap := st.heap ++ [freshEntity V E]
             entries := insertBinding st.entries k st.heap.length }
          k st.heap.length (f (ctx.getD GoCtx.background) k)).2,
       [Event.ctorCall st.heap.length k]) := by
  unfold loadOrCtor
  rw [loadOrCtorBegin_miss st k hl]

/-- `Delete` on a present key: the removed entity's cancel handle fires,
the binding is dropped, and one `OnDelete` event is emitted when a callback
is installed. -/
theorem deleteKey_present (st : CacheState K V E) (k : K) (eid : Nat) (e : Entity V E)
    (hl : lookupKey st k = some eid) (hg : st.heap[eid]? = some e) :
    deleteKey st k =
      ({ st with
          heap := st.heap.set eid { e with cancelled := true }
          entries := removeBinding st.entries k },
       if st.hasOnDelete then [Event.onDelete eid k e.val] else []) := by
  unfold deleteKey
  rw [hl]
  dsimp only
  rw [hg]

/-- `Delete` on an absent key is a no-op. -/
theorem deleteKey_absent (st : CacheState K V E) (k : K) (hl : lookupKey st k = none) :
    deleteKey st k = (st, []) := by
  unfold deleteKey
  rw [hl]

/-- On a hit whose binding dangles (no entity at the id — unreachable in
well-formed states, kept for totality), `LoadOrCtor` also leaves the state
unchanged and invokes nothing. -/
theorem loadOrCtor_hit_dangling (st : CacheState K V E) (ctx : Option (GoCtx C)) (k : K)
    (f : GoCtx C → K → V × Option (GoError E)) (eid : Nat)
    (hl : lookupKey st k = some eid) (hg : st.heap[eid]? = none) :
    loadOrCtor st ctx k (some f) = ((default, none), st, []) := by
  unfold loadOrCtor loadOrCtorBegin
  rw [hl]
  dsimp only
  rw [hg]

/-- Concrete constructors used by the witnesses. -/
def ctorA : GoCtx Unit → Nat → Nat × Option (GoError Unit) := fun _ _ => (7, none)

/-- A second concrete successful constructor, distinguishable from `ctorA`. -/
def ctorB : GoCtx Unit → Nat → Nat × Option (GoError Unit) := fun _ _ => (9, none)

/-- A concrete failing constructor. -/
def ctorFail : GoCtx Unit → Nat → Nat × Option (GoError Unit) :=
  fun _ _ => (0, some (GoError.user ()))

/-- A concrete cache state holding one completed entry for key `1`. -/
def hitState : CacheState Nat Nat Unit :=
  { lifetime := 0, hasOnDelete := true
    heap := [{ val := 5, err := none, hasTimer := false, cancelled := false
               done := true, watcher := false }]
    entries := [(1, 0)] }

/-- The pair returned by the tail of `LoadOrCtor` is always the
constructor's result, on every branch. -/
theorem loadOrCtorFinish_fst (st : CacheState K V E) (k : K) (eid : Nat)
    (res : V × Option (GoError E)) : (loadOrCtorFinish st k eid res).1 = res := by
  obtain ⟨rv, re⟩ := res
  unfold loadOrCtorFinish
  cases h : st.heap[eid]? with
  | none => rfl
  | some e0 =>
    cases re with
    | none => rfl
    | some er => rfl

/-- On a miss, `LoadOrCtor` returns exactly the constructor's result for
the effective context and emits exactly one `ctorCall` for the fresh
generation. -/
theorem loadOrCtor_miss_invokes (st : CacheState K V E) (ctx : Option (GoCtx C)) (k : K)
    (f : GoCtx C → K → V × Option (GoError E)) (hl : lookupKey st k = none) :
    (loadOrCtor st ctx k (some f)).1 = f (ctx.getD GoCtx.background) k ∧
    (loadOrCtor st ctx k (some f)).2.2 = [Event.ctorCall st.heap.length k] := by
  rw [loadOrCtor_miss st ctx k f hl]
  exact ⟨loadOrCtorFinish_fst _ k st.heap.length _, rfl⟩

/-! ## Claims -/

/-- C5: if the constructor argument is nil, `LoadOrCtor` returns the zero
value together with `ErrCtorNotProvided`, the state is completely
unchanged, and nothing is invoked (lazymap.go lines 55–58). -/
theorem c5_nil_constructor (st : CacheState K V E) (ctx : Option (GoCtx C)) (k : K) :
    loadOrCtor st ctx k none = ((default, some GoError.ctorNotProvided), st, []) := rfl

/-- C9: a `LoadOrCtor` call that finds the key present returns a result
that is independent of the caller's context (and even of the supplied
constructor), leaves the state unchanged, and never invokes the
constructor: the context influences only the miss path (lazymap.go
lines 65–72). -/
theorem c9_hit_ctx_independent (st : CacheState K V E) (ctx1 ctx2 : Option (GoCtx C))
    (k : K) (f1 f2 : GoCtx C → K → V × Option (GoError E)) (eid : Nat)
    (h : lookupKey st k = some eid) :
    loadOrCtor st ctx1 k (some f1) = loadOrCtor st ctx2 k (some f2) ∧
    (loadOrCtor st ctx1 k (some f1)).2.1 = st ∧
    (loadOrCtor st ctx1 k (some f1)).2.2 = [] := by
  match hg : st.heap[eid]? with
  | some e =>
    rw [loadOrCtor_hit st ctx1 k f1 eid e h hg, loadOrCtor_hit st ctx2 k f2 eid e h hg]
    exact ⟨rfl, rfl, rfl⟩
  | none =>
    rw [loadOrCtor_hit_dangling st ctx1 k f1 eid h hg,
      loadOrCtor_hit_dangling st ctx2 k f2 eid h hg]
    exact ⟨rfl, rfl, rfl⟩

/-- C9 witness: two calls on the present key `1` of `hitState`, one with a
non-background context and a successful constructor, one with a nil
context and a failing constructor, coincide and invoke nothing. -/
theorem c9_hit_ctx_independent_witness :
    loadOrCtor hitState (some (GoCtx.other ())) 1 (some ctorA) =
      loadOrCtor hitState none 1 (some ctorFail) ∧
    (loadOrCtor hitState (some (GoCtx.other ())) 1 (some ctorA)).2.1 = hitState ∧
    (loadOrCtor hitState (some (GoCtx.other ())) 1 (some ctorA)).2.2 = [] :=
  c9_hit_ctx_independent hitState (some (GoCtx.other ())) none 1 ctorA ctorFail 0
    (by decide)

/-- C10: `Delete` invoked while the entry is still pending (created by the
first critical section, constructor not yet finished) fires `OnDelete` with
the zero value of `V` — the entity's value field has not been written — and
removes the binding (lazymap.go lines 74–79 and 107–123). -/
theorem c10_delete_pending_zero_value (st : CacheState K V E) (k : K)
    (hl : lookupKey st k = none) (hd : st.hasOnDelete = true) :
    (deleteKey (loadOrCtorBegin st k).2.1 k).2 =
      [Event.onDelete st.heap.length k (default : V)] ∧
    lookupKey (deleteKey (loadOrCtorBegin st k).2.1 k).1 k = none := by
  rw [loadOrCtorBegin_miss st k hl]
  dsimp only
  have hl' : lookupKey
      { st with
         heap := st.heap ++ [freshEntity V E]
         entries := insertBinding st.entries k st.heap.length } k =
      some st.heap.length := by
    simp [lookupKey, lookupL_insert_self]
  have hg' : (st.heap ++ [freshEntity V E])[st.heap.length]? = some (freshEntity V E) :=
    List.getElem?_concat_length _ _
  rw [deleteKey_present _ k st.heap.length (freshEntity V E) hl' hg']
  dsimp only
  refine ⟨by simp [hd, freshEntity], ?_⟩
  simp [lookupKey, insertBinding, lookupL_remove_self]

/-- C10 witness: on the empty cache, begin a construction for key `3`, then
delete it while pending: `OnDelete` fires with the zero value `0`. -/
theorem c10_delete_pending_zero_value_witness :
    (deleteKey (loadOrCtorBegin (initCache Nat Nat Unit 0 true) 3).2.1 3).2 =
      [Event.onDelete 0 3 (default : Nat)] ∧
    lookupKey (deleteKey (loadOrCtorBegin (initCache Nat Nat Unit 0 true) 3).2.1 3).1 3 =
      none :=
  c10_delete_pending_zero_value (initCache Nat Nat Unit 0 true) 3 (by decide) (by decide)

/-- Count the `onDelete` events of a trace. -/
def onDeleteCount (evs : List (Event K V)) : Nat :=
  evs.countP fun ev =>
    match ev with
    | Event.onDelete _ _ _ => true
    | _ => false

/-- C7: `Delete` is idempotent — on an absent key it leaves the cache
unchanged and emits nothing, and two consecutive deletions with no
intervening insert emit at most one `OnDelete` (the second emits none)
(lazymap.go lines 108–114). -/
theorem c7_delete_idempotent (st : CacheState K V E) (k : K) :
    (lookupKey st k = none → deleteKey st k = (st, [])) ∧
    (deleteKey (deleteKey st k).1 k).2 = [] ∧
    onDeleteCount ((deleteKey st k).2 ++ (deleteKey (deleteKey st k).1 k).2) ≤ 1 := by
  have h2 : (deleteKey (deleteKey st k).1 k).2 = [] := by
    match hl : lookupKey st k with
    | none =>
      rw [deleteKey_absent st k hl]
      rw [deleteKey_absent st k hl]
    | some eid =>
      match hg : st.heap[eid]? with
      | none =>
        have : deleteKey st k = (st, []) := by
          unfold deleteKey
          rw [hl]
          dsimp only
          rw [hg]
        rw [this]
        rw [this]
      | some e =>
        rw [deleteKey_present st k eid e hl hg]
        dsimp only
        have hl2 : lookupKey
            { st with
               heap := st.heap.set eid { e with cancelled := true }
               entries := removeBinding st.entries k } k = none := by
          simp [lookupKey, lookupL_remove_self]
        rw [deleteKey_absent _ k hl2]
  refine ⟨fun hl => deleteKey_absent st k hl, h2, ?_⟩
  rw [h2, List.append_nil]
  match hl : lookupKey st k with
  | none =>
    rw [deleteKey_absent st k hl]
    simp [onDeleteCount]
  | some eid =>
    match hg : st.heap[eid]? with
    | none =>
      have : deleteKey st k = (st, []) := by
        unfold deleteKey
        rw [hl]
        dsimp only
        rw [hg]
      rw [this]
      simp [onDeleteCount]
    | some e =>
      rw [deleteKey_present st k eid e hl hg]
      dsimp only
      by_cases hod : st.hasOnDelete = true
      · simp [hod, onDeleteCount]
      · simp [hod, onDeleteCount]

/-- C7 witness: deleting key `1` of `hitState` twice emits exactly one
`OnDelete`; deleting an absent key of the empty cache is a no-op. -/
theorem c7_delete_idempotent_witness :
    ((lookupKey hitState 1 = none → deleteKey hitState 1 = (hitState, [])) ∧
     (deleteKey (deleteKey hitState 1).1 1).2 = [] ∧
     onDeleteCount ((deleteKey hitState 1).2 ++ (deleteKey (deleteKey hitState 1).1 1).2)
       ≤ 1) ∧
    (lookupKey (initCache Nat Nat Unit 5 true) 2 = none →
      deleteKey (initCache Nat Nat Unit 5 true) 2 = (initCache Nat Nat Unit 5 true, [])) :=
  ⟨c7_delete_idempotent hitState 1, (c7_delete_idempotent (initCache Nat Nat Unit 5 true) 2).1⟩



/-- C2: a failing construction returns the constructor's error to the
caller, completes the entry (`done`), leaves the key absent — the error is
never cached — and any subsequent `LoadOrCtor` for the key invokes its
constructor afresh and returns that constructor's result (lazymap.go
lines 81–94). -/
theorem c2_error_not_cached (st : CacheState K V E) (ctx : Option (GoCtx C)) (k : K)
    (f : GoCtx C → K → V × Option (GoError E)) (v : V) (er : GoError E)
    (hl : lookupKey st k = none)
    (hf : f (ctx.getD GoCtx.background) k = (v, some er)) :
    (loadOrCtor st ctx k (some f)).1 = (v, some er) ∧
    lookupKey (loadOrCtor st ctx k (some f)).2.1 k = none ∧
    ((loadOrCtor st ctx k (some f)).2.1.heap[st.heap.length]?).map
        (fun e => (e.done, e.err)) = some (true, some er) ∧
    (loadOrCtor st ctx k (some f)).2.2 = [Event.ctorCall st.heap.length k] ∧
    (∀ (ctx2 : Option (GoCtx C)) (f2 : GoCtx C → K → V × Option (GoError E)),
      (loadOrCtor (loadOrCtor st ctx k (some f)).2.1 ctx2 k (some f2)).1 =
        f2 (ctx2.getD GoCtx.background) k ∧
      (loadOrCtor (loadOrCtor st ctx k (some f)).2.1 ctx2 k (some f2)).2.2 =
        [Event.ctorCall (loadOrCtor st ctx k (some f)).2.1.heap.length k]) := by
  have hg : (st.heap ++ [freshEntity V E])[st.heap.length]? = some (freshEntity V E) :=
    List.getElem?_concat_length _ _
  rw [loadOrCtor_miss st ctx k f hl, hf,
    loadOrCtorFinish_err _ k st.heap.length (freshEntity V E) v er hg]
  dsimp only
  have habs : lookupL (removeBinding (insertBinding st.entries k st.heap.length) k) k =
      none := lookupL_remove_self _ k
  refine ⟨rfl, by simpa [lookupKey] using habs, ?_, rfl, ?_⟩
  · rw [List.getElem?_set_self (by simpa using Nat.lt_succ_self st.heap.length)]
    rfl
  · intro ctx2 f2
    exact loadOrCtor_miss_invokes _ ctx2 k f2 (by simpa [lookupKey] using habs)

/-- C2 witness: on the empty cache, `ctorFail` for key `4` yields the user
error with the key absent afterwards, and an immediate retry with `ctorA`
invokes `ctorA` and returns its result. -/
theorem c2_error_not_cached_witness :
    (loadOrCtor (initCache Nat Nat Unit 0 true) none 4 (some ctorFail)).1 =
      (0, some (GoError.user ())) ∧
    lookupKey (loadOrCtor (initCache Nat Nat Unit 0 true) none 4 (some ctorFail)).2.1 4 =
      none ∧
    (loadOrCtor (loadOrCtor (initCache Nat Nat Unit 0 true) none 4 (some ctorFail)).2.1
        none 4 (some ctorA)).1 = ctorA GoCtx.background 4 :=
  ⟨(c2_error_not_cached (initCache Nat Nat Unit 0 true) none 4 ctorFail 0
      (GoError.user ()) (by decide) (by decide)).1,
   (c2_error_not_cached (initCache Nat Nat Unit 0 true) none 4 ctorFail 0
      (GoError.user ()) (by decide) (by decide)).2.1,
   ((c2_error_not_cached (initCache Nat Nat Unit 0 true) none 4 ctorFail 0
      (GoError.user ()) (by decide) (by decide)).2.2.2.2 none ctorA).1⟩

/-- C3 counterexample to the claim as stated: a construction failure for
key `7` removes the entry from the map (the key is absent afterwards), yet
the removed entry's cancellation handle was never triggered —
`LoadOrCtor`'s error path only deletes the binding and never calls
`e.cacenl()` (lazymap.go lines 83–86). -/
theorem c3_cancel_missing_counterexample :
    lookupKey (loadOrCtor (initCache Nat Nat Unit 0 true) none 7 (some ctorFail)).2.1 7 =
      none ∧
    ((loadOrCtor (initCache Nat Nat Unit 0 true) none 7 (some ctorFail)).2.1.heap[0]?).map
        (fun e => e.cancelled) = some false := by decide

/-- C3 amended: removals performed by `Delete` — explicit deletion and TTL
expiry, which goes through `Delete` — trigger the removed entry's
cancellation handle, stopping its watcher; removal caused by failed
construction does not trigger the handle, but such an entry never acquired
a timer or watcher, so no watcher is left behind (lazymap.go lines 83–90
and 107–123). -/
theorem c3_cancel_on_delete_amended (st : CacheState K V E) (k : K) (eid : Nat)
    (e : Entity V E) (hl : lookupKey st k = some eid) (hg : st.heap[eid]? = some e) :
    (deleteKey st k).1.heap[eid]? = some { e with cancelled := true } ∧
    (∀ (st' : CacheState K V E) (ctx : Option (GoCtx C))
       (f : GoCtx C → K → V × Option (GoError E)) (k' : K) (v : V) (er : GoError E),
       lookupKey st' k' = none →
       f (ctx.getD GoCtx.background) k' = (v, some er) →
       ((loadOrCtor st' ctx k' (some f)).2.1.heap[st'.heap.length]?).map
           (fun e => (e.cancelled, e.hasTimer, e.watcher)) =
         some (false, false, false)) := by
  obtain ⟨hlt, -⟩ := List.getElem?_eq_some.1 hg
  constructor
  · rw [deleteKey_present st k eid e hl hg]
    dsimp only
    rw [List.getElem?_set_self (by simpa using hlt)]
  · intro st' ctx f k' v er hl' hf'
    have hg' : (st'.heap ++ [freshEntity V E])[st'.heap.length]? =
        some (freshEntity V E) := List.getElem?_concat_length _ _
    rw [loadOrCtor_miss st' ctx k' f hl', hf',
      loadOrCtorFinish_err _ k' st'.heap.length (freshEntity V E) v er hg']
    dsimp only
    rw [List.getElem?_set_self (by simpa using Nat.lt_succ_self st'.heap.length)]
    rfl

/-- C3 amended witness: deleting the live key `1` of `hitState` sets the
removed entry's `cancelled` flag; a failed construction on the empty cache
leaves an entry with no cancel, no timer and no watcher. -/
theorem c3_cancel_on_delete_amended_witness :
    (deleteKey hitState 1).1.heap[0]? =
      some { val := 5, err := none, hasTimer := false, cancelled := true
             done := true, watcher := false } ∧
    ((loadOrCtor (initCache Nat Nat Unit 0 true) none 7 (some ctorFail)).2.1.heap[0]?).map
        (fun e => (e.cancelled, e.hasTimer, e.watcher)) = some (false, false, false) :=
  ⟨(c3_cancel_on_delete_amended (C := Unit) hitState 1 0
      { val := 5, err := none, hasTimer := false, cancelled := false
        done := true, watcher := false } (by decide) (by decide)).1,
   (c3_cancel_on_delete_amended (C := Unit) hitState 1 0
      { val := 5, err := none, hasTimer := false, cancelled := false
        done := true, watcher := false } (by decide) (by decide)).2
     (initCache Nat Nat Unit 0 true) none ctorFail 7 0 (GoError.user ())
     (by decide) (by decide)⟩

/-- Deleting a present key and immediately re-requesting it invokes the
new constructor on a fresh generation and returns its result. -/
theorem reload_after_delete (st0 : CacheState K V E) (k : K) (eid : Nat)
    (ctx3 : Option (GoCtx C)) (f2 : GoCtx C → K → V × Option (GoError E))
    (hl : lookupKey st0 k = some eid) (he : ∃ e, st0.heap[eid]? = some e) :
    (loadOrCtor (deleteKey st0 k).1 ctx3 k (some f2)).1 =
      f2 (ctx3.getD GoCtx.background) k ∧
    (loadOrCtor (deleteKey st0 k).1 ctx3 k (some f2)).2.2 =
      [Event.ctorCall (deleteKey st0 k).1.heap.length k] := by
  obtain ⟨e, hge⟩ := he
  have habs : lookupKey (deleteKey st0 k).1 k = none := by
    rw [deleteKey_present st0 k eid e hl hge]
    simp [lookupKey, lookupL_remove_self]
  exact loadOrCtor_miss_invokes _ ctx3 k f2 habs

/-- C6: round trip — a successful `LoadOrCtor k f1`, then `Delete k`, then
`LoadOrCtor k f2` invokes `f2` (one fresh `ctorCall`) and returns `f2`'s
result, not `f1`'s (lazymap.go lines 60–81 and 107–123). -/
theorem c6_round_trip (st : CacheState K V E) (ctx1 ctx3 : Option (GoCtx C)) (k : K)
    (f1 f2 : GoCtx C → K → V × Option (GoError E)) (v : V)
    (hl : lookupKey st k = none)
    (hf : f1 (ctx1.getD GoCtx.background) k = (v, none)) :
    (loadOrCtor st ctx1 k (some f1)).1 = (v, none) ∧
    (loadOrCtor (deleteKey (loadOrCtor st ctx1 k (some f1)).2.1 k).1 ctx3 k
        (some f2)).1 = f2 (ctx3.getD GoCtx.background) k ∧
    (loadOrCtor (deleteKey (loadOrCtor st ctx1 k (some f1)).2.1 k).1 ctx3 k
        (some f2)).2.2 =
      [Event.ctorCall
        (deleteKey (loadOrCtor st ctx1 k (some f1)).2.1 k).1.heap.length k] := by
  have hg : (st.heap ++ [freshEntity V E])[st.heap.length]? = some (freshEntity V E) :=
    List.getElem?_concat_length _ _
  rw [loadOrCtor_miss st ctx1 k f1 hl, hf,
    loadOrCtorFinish_ok _ k st.heap.length (freshEntity V E) v hg]
  dsimp only
  have hrel := reload_after_delete
    { st with
       heap := (st.heap ++ [freshEntity V E]).set st.heap.length
         (if st.lifetime ≠ 0 then
           { freshEntity V E with val := v, err := none, hasTimer := true
                                  watcher := true, done := true }
          else { freshEntity V E with val := v, err := none, done := true })
       entries := insertBinding st.entries k st.heap.length }
    k st.heap.length ctx3 f2 (by simp [lookupKey, lookupL_insert_self])
    ⟨_, List.getElem?_set_self (by simp)⟩
  exact ⟨rfl, hrel.1, hrel.2⟩

/-- C6 witness: on the empty cache, load key `2` with `ctorA` (yielding
`7`), delete it, and reload with `ctorB`: `ctorB` is invoked and its result
`(9, none)` is returned. -/
theorem c6_round_trip_witness :
    (loadOrCtor (initCache Nat Nat Unit 0 true) none 2 (some ctorA)).1 = (7, none) ∧
    (loadOrCtor
        (deleteKey (loadOrCtor (initCache Nat Nat Unit 0 true) none 2 (some ctorA)).2.1
          2).1 none 2 (some ctorB)).1 = ctorB GoCtx.background 2 ∧
    (loadOrCtor
        (deleteKey (loadOrCtor (initCache Nat Nat Unit 0 true) none 2 (some ctorA)).2.1
          2).1 none 2 (some ctorB)).2.2 =
      [Event.ctorCall
        (deleteKey (loadOrCtor (initCache Nat Nat Unit 0 true) none 2 (some ctorA)).2.1
          2).1.heap.length 2] :=
  c6_round_trip (initCache Nat Nat Unit 0 true) none none 2 ctorA ctorB 7
    (by decide) (by decide)

/-! ## Trace-level invariants -/

/-- No entity of the heap has a timer or a watcher. -/
def NoTimers (hp : List (Entity V E)) : Prop :=
  ∀ (eid : Nat) (e : Entity V E), hp[eid]? = some e →
    e.hasTimer = false ∧ e.watcher = false

theorem noTimers_set (hp : List (Entity V E)) (i : Nat) (a : Entity V E)
    (h : NoTimers hp) (ha : a.hasTimer = false ∧ a.watcher = false) :
    NoTimers (hp.set i a) := by
  intro j e hj
  by_cases hij : i = j
  · subst hij
    by_cases hlt : i < hp.length
    · rw [List.getElem?_set_self hlt] at hj
      cases hj
      exact ha
    · rw [List.set_eq_of_length_le (Nat.le_of_not_lt hlt)] at hj
      exact h i e hj
  · rw [List.getElem?_set_ne hij] at hj
    exact h j e hj

theorem noTimers_append (hp1 hp2 : List (Entity V E))
    (h1 : NoTimers hp1) (h2 : NoTimers hp2) : NoTimers (hp1 ++ hp2) := by
  intro j e hj
  by_cases hlt : j < hp1.length
  · rw [List.getElem?_append_left hlt] at hj
    exact h1 j e hj
  · rw [List.getElem?_append_right (Nat.le_of_not_lt hlt)] at hj
    exact h2 _ e hj

theorem noTimers_fresh : NoTimers [freshEntity V E] := by
  intro j e hj
  match j, hj with
  | 0, hj =>
    cases hj
    exact ⟨rfl, rfl⟩

/-- One step preserves "lifetime 0 and no timers or watchers anywhere". -/
theorem noTimers_runOp (st : CacheState K V E) (op : Op K V E C)
    (hz : st.lifetime = 0) (h : NoTimers st.heap) :
    (runOp st op).1.lifetime = 0 ∧ NoTimers (runOp st op).1.heap := by
  match op with
  | Op.load ctx k fn =>
    match fn with
    | none => exact ⟨hz, h⟩
    | some f =>
      match hl : lookupKey st k with
      | some eid =>
        match hg : st.heap[eid]? with
        | some e =>
          have := loadOrCtor_hit st ctx k f eid e hl hg
          simp only [runOp, this]
          exact ⟨hz, h⟩
        | none =>
          have := loadOrCtor_hit_dangling st ctx k f eid hl hg
          simp only [runOp, this]
          exact ⟨hz, h⟩
      | none =>
        have hg : (st.heap ++ [freshEntity V E])[st.heap.length]? =
            some (freshEntity V E) := List.getElem?_concat_length _ _
        have hext : NoTimers (st.heap ++ [freshEntity V E]) :=
          noTimers_append _ _ h noTimers_fresh
        simp only [runOp, loadOrCtor_miss st ctx k f hl]
        match hres : f (ctx.getD GoCtx.background) k with
        | (rv, some er) =>
          rw [loadOrCtorFinish_err _ k st.heap.length (freshEntity V E) rv er hg]
          exact ⟨hz, noTimers_set _ _ _ hext ⟨rfl, rfl⟩⟩
        | (rv, none) =>
          rw [loadOrCtorFinish_ok _ k st.heap.length (freshEntity V E) rv hg]
          refine ⟨hz, noTimers_set _ _ _ hext ?_⟩
          simp only [hz]
          exact ⟨rfl, rfl⟩
  | Op.del k =>
    match hl : lookupKey st k with
    | none =>
      simp only [runOp, deleteKey_absent st k hl]
      exact ⟨hz, h⟩
    | some eid =>
      match hg : st.heap[eid]? with
      | none =>
        have hdel : deleteKey st k = (st, []) := by
          unfold deleteKey
          rw [hl]
          dsimp only
          rw [hg]
        simp only [runOp, hdel]
        exact ⟨hz, h⟩
      | some e =>
        simp only [runOp, deleteKey_present st k eid e hl hg]
        exact ⟨hz, noTimers_set _ _ _ h ⟨(h eid e hg).1, (h eid e hg).2⟩⟩
  | Op.fire k eid =>
    match hg : st.heap[eid]? with
    | none =>
      simp only [runOp, hg]
      exact ⟨hz, h⟩
    | some e =>
      have ht := (h eid e hg).1
      simp only [runOp, hg, ht]
      exact ⟨hz, h⟩
  | Op.watchExit eid =>
    match hg : st.heap[eid]? with
    | none =>
      simp only [runOp, hg]
      exact ⟨hz, h⟩
    | some e =>
      have hw := (h eid e hg).2
      simp [runOp, hg, hw]
      exact ⟨hz, h⟩

/-- Any run from a lifetime-0 cache keeps lifetime 0 and creates no timer
and no watcher. -/
theorem noTimers_run (ops : List (Op K V E C)) (st : CacheState K V E)
    (hz : st.lifetime = 0) (h : NoTimers st.heap) :
    (run st ops).1.lifetime = 0 ∧ NoTimers (run st ops).1.heap := by
  induction ops generalizing st with
  | nil => exact ⟨hz, h⟩
  | cons op ops ih =>
    have hstep := noTimers_runOp st op hz h
    simp only [run]
    exact ih (runOp st op).1 hstep.1 hstep.2

/-- A step that is not an explicit `Delete` of `k` preserves `k`'s binding,
provided nothing has a timer (so no expiry can fire). -/
theorem binding_persists_runOp (st : CacheState K V E) (op : Op K V E C)
    (k : K) (eid : Nat) (h : NoTimers st.heap)
    (hb : lookupKey st k = some eid) (hop : op ≠ Op.del k) :
    lookupKey (runOp st op).1 k = some eid := by
  match op with
  | Op.load ctx k2 fn =>
    match fn with
    | none => exact hb
    | some f =>
      match hl : lookupKey st k2 with
      | some eid2 =>
        match hg : st.heap[eid2]? with
        | some e =>
          simp only [runOp, loadOrCtor_hit st ctx k2 f eid2 e hl hg]
          exact hb
        | none =>
          simp only [runOp, loadOrCtor_hit_dangling st ctx k2 f eid2 hl hg]
          exact hb
      | none =>
        have hne : k ≠ k2 := by
          intro hkk
          rw [hkk, hl] at hb
          cases hb
        have hg : (st.heap ++ [freshEntity V E])[st.heap.length]? =
            some (freshEntity V E) := List.getElem?_concat_length _ _
        simp only [runOp, loadOrCtor_miss st ctx k2 f hl]
        match hres : f (ctx.getD GoCtx.background) k2 with
        | (rv, some er) =>
          rw [loadOrCtorFinish_err _ k2 st.heap.length (freshEntity V E) rv er hg]
          simp only [lookupKey] at hb ⊢
          rw [lookupL_remove_ne _ k2 k hne, lookupL_insert_ne _ k2 k _ hne]
          exact hb
        | (rv, none) =>
          rw [loadOrCtorFinish_ok _ k2 st.heap.length (freshEntity V E) rv hg]
          simp only [lookupKey] at hb ⊢
          rw [lookupL_insert_ne _ k2 k _ hne]
          exact hb
  | Op.del k2 =>
    have hne : k ≠ k2 := by
      intro hkk
      exact hop (by rw [hkk])
    match hl : lookupKey st k2 with
    | none =>
      simp only [runOp, deleteKey_absent st k2 hl]
      exact hb
    | some eid2 =>
      match hg : st.heap[eid2]? with
      | none =>
        have hdel : deleteKey st k2 = (st, []) := by
          unfold deleteKey
          rw [hl]
          dsimp only
          rw [hg]
        simp only [runOp, hdel]
        exact hb
      | some e =>
        simp only [runOp, deleteKey_present st k2 eid2 e hl hg]
        simp only [lookupKey] at hb ⊢
        rw [lookupL_remove_ne _ k2 k hne]
        exact hb
  | Op.fire k2 eid2 =>
    match hg : st.heap[eid2]? with
    | none =>
      simp only [runOp, hg]
      exact hb
    | some e =>
      have ht := (h eid2 e hg).1
      simp only [runOp, hg, ht]
      exact hb
  | Op.watchExit eid2 =>
    match hg : st.heap[eid2]? with
    | none =>
      simp only [runOp, hg]
      exact hb
    | some e =>
      have hw := (h eid2 e hg).2
      simp [runOp, hg, hw]
      exact hb

/-- C8: with `Lifetime = 0`, no run ever creates a timer or a background
watcher for any entity (so no expiry `fire` is ever enabled), and a bound
key stays bound with the same entity under any further operation except an
explicit `Delete` of that key (lazymap.go lines 87–90: the timer and
watcher exist only when `m.Lifetime != 0`). -/
theorem c8_lifetime_zero_never_expires (hod : Bool) (ops : List (Op K V E C))
    (op : Op K V E C) (k : K) (eid : Nat) :
    NoTimers (run (initCache K V E 0 hod) ops).1.heap ∧
    (lookupKey (run (initCache K V E 0 hod) ops).1 k = some eid →
     op ≠ Op.del k →
     lookupKey (runOp (run (initCache K V E 0 hod) ops).1 op).1 k = some eid) := by
  have hinit : NoTimers (initCache K V E 0 hod).heap := by
    intro j e hj
    cases j <;> cases hj
  have hrun := noTimers_run ops (initCache K V E 0 hod) rfl hinit
  exact ⟨hrun.2, fun hb hop =>
    binding_persists_runOp (run (initCache K V E 0 hod) ops).1 op k eid hrun.2 hb hop⟩

/-- C8 witness: after loading key `1` on a lifetime-0 cache, no timers
exist and a subsequent load of a different key `5` keeps `1` bound to its
entity. -/
theorem c8_lifetime_zero_never_expires_witness :
    NoTimers (run (initCache Nat Nat Unit 0 true)
      [Op.load none 1 (some ctorA)]).1.heap ∧
    (lookupKey (run (initCache Nat Nat Unit 0 true)
        [Op.load none 1 (some ctorA)]).1 1 = some 0 →
     Op.load none 5 (some ctorB) ≠ Op.del 1 →
     lookupKey (runOp (run (initCache Nat Nat Unit 0 true)
        [Op.load none 1 (some ctorA)]).1 (Op.load none 5 (some ctorB))).1 1 = some 0) :=
  c8_lifetime_zero_never_expires true [Op.load none 1 (some ctorA)]
    (Op.load none 5 (some ctorB)) 1 0

/-! ## Exactly-once `OnDelete` (trace invariant) -/

/-- Heap ids of the `onDelete` events of a trace. -/
def onDeleteEids (evs : List (Event K V)) : List Nat :=
  evs.filterMap fun ev =>
    match ev with
    | Event.onDelete eid _ _ => some eid
    | _ => none

theorem onDeleteEids_append (evs1 evs2 : List (Event K V)) :
    onDeleteEids (evs1 ++ evs2) = onDeleteEids evs1 ++ onDeleteEids evs2 :=
  List.filterMap_append _ _ _

/-- The entity at `eid` exists, is completed, and carries no error. -/
def GoodAt (hp : List (Entity V E)) (eid : Nat) : Prop :=
  ∃ e : Entity V E, hp[eid]? = some e ∧ e.done = true ∧ e.err = none

theorem goodAt_lt (hp : List (Entity V E)) (j : Nat) (h : GoodAt hp j) :
    j < hp.length := by
  obtain ⟨e, he, -, -⟩ := h
  exact (List.getElem?_eq_some.1 he).1

theorem goodAt_append (hp l2 : List (Entity V E)) (j : Nat) (h : GoodAt hp j) :
    GoodAt (hp ++ l2) j := by
  obtain ⟨e, he, hd, her⟩ := h
  exact ⟨e, by rw [List.getElem?_append_left (List.getElem?_eq_some.1 he).1]; exact he,
    hd, her⟩

theorem goodAt_set_ne (hp : List (Entity V E)) (i : Nat) (a : Entity V E) (j : Nat)
    (hij : i ≠ j) (h : GoodAt hp j) : GoodAt (hp.set i a) j := by
  obtain ⟨e, he, hd, her⟩ := h
  exact ⟨e, by rw [List.getElem?_set_ne hij]; exact he, hd, her⟩

/-- Overwriting an entity with one agreeing on `done` and `err` preserves
`GoodAt` everywhere. -/
theorem goodAt_set_flags (hp : List (Entity V E)) (i : Nat) (e' a : Entity V E) (j : Nat)
    (hi : hp[i]? = some e') (ha : a.done = e'.done ∧ a.err = e'.err)
    (h : GoodAt hp j) : GoodAt (hp.set i a) j := by
  by_cases hij : i = j
  · subst hij
    obtain ⟨e, he, hd, her⟩ := h
    cases he.symm.trans hi
    exact ⟨a, List.getElem?_set_self (List.getElem?_eq_some.1 hi).1,
      ha.1.trans hd, ha.2.trans her⟩
  · exact goodAt_set_ne hp i a j hij h

theorem mem_removeBinding (p : K × Nat) (l : List (K × Nat)) (k : K)
    (h : p ∈ removeBinding l k) : p ∈ l ∧ p.1 ≠ k := by
  have h2 := List.mem_filter.1 h
  exact ⟨h2.1, of_decide_eq_true h2.2⟩

theorem mem_mappedEids_remove (l : List (K × Nat)) (k : K) (eid : Nat)
    (h : eid ∈ (removeBinding l k).map (fun p => p.2)) :
    eid ∈ l.map (fun p => p.2) := by
  obtain ⟨p, hp, hpe⟩ := List.mem_map.1 h
  exact List.mem_map.2 ⟨p, (mem_removeBinding p l k hp).1, hpe⟩

theorem mappedEids_remove_nodup (l : List (K × Nat)) (k : K)
    (h : (l.map (fun p => p.2)).Nodup) :
    ((removeBinding l k).map (fun p => p.2)).Nodup :=
  h.sublist ((List.filter_sublist l).map _)

theorem lookupL_mem (l : List (K × Nat)) (k : K) (eid : Nat)
    (h : lookupL l k = some eid) : (k, eid) ∈ l := by
  unfold lookupL at h
  obtain ⟨p, hp, hpe⟩ := Option.map_eq_some'.1 h
  have hmem := List.mem_of_find?_eq_some hp
  have hpred := List.find?_some hp
  simp only [decide_eq_true_eq] at hpred
  obtain ⟨p1, p2⟩ := p
  cases hpred
  cases hpe
  exact hmem

theorem nodup_concat_nat (l : List Nat) (a : Nat) (h1 : l.Nodup) (h2 : a ∉ l) :
    (l ++ [a]).Nodup := by
  rw [List.nodup_append]
  refine ⟨h1, List.nodup_singleton a, ?_⟩
  intro x hx hxa
  simp only [List.mem_singleton] at hxa
  exact h2 (hxa ▸ hx)

/-- Invariant of sequential runs: every mapped entity is completed and
error-free; mapped heap ids are distinct; every `onDelete` event names an
existing, completed, error-free (hence successfully constructed) entity
that is no longer mapped; and no two `onDelete` events name the same
entity. -/
structure SeqInv (st : CacheState K V E) (evs : List (Event K V)) : Prop where
  mapped : ∀ p ∈ st.entries, GoodAt st.heap p.2
  mappedNodup : (st.entries.map (fun p => p.2)).Nodup
  evBound : ∀ eid ∈ onDeleteEids evs, eid < st.heap.length
  evGood : ∀ eid ∈ onDeleteEids evs, GoodAt st.heap eid
  evUnmapped : ∀ eid ∈ onDeleteEids evs, eid ∉ st.entries.map (fun p => p.2)
  evNodup : (onDeleteEids evs).Nodup

theorem seqInv_deleteKey (st : CacheState K V E) (evs : List (Event K V)) (k : K)
    (h : SeqInv st evs) : SeqInv (deleteKey st k).1 (evs ++ (deleteKey st k).2) := by
  match hl : lookupKey st k with
  | none =>
    rw [deleteKey_absent st k hl]
    simpa using h
  | some eid =>
    match hg : st.heap[eid]? with
    | none =>
      have hdel : deleteKey st k = (st, []) := by
        unfold deleteKey
        rw [hl]
        dsimp only
        rw [hg]
      rw [hdel]
      simpa using h
    | some e =>
      rw [deleteKey_present st k eid e hl hg]
      dsimp only
      have hmem : (k, eid) ∈ st.entries := lookupL_mem st.entries k eid hl
      obtain ⟨e', he', hd', herr'⟩ := h.mapped (k, eid) hmem
      cases he'.symm.trans hg
      have hflags : (Entity.mk e.val e.err e.hasTimer true e.done e.watcher).done = e.done ∧
          (Entity.mk e.val e.err e.hasTimer true e.done e.watcher).err = e.err := ⟨rfl, rfl⟩
      have heidmap : eid ∈ st.entries.map (fun p => p.2) :=
        List.mem_map.2 ⟨(k, eid), hmem, rfl⟩
      have hnewEv : ∀ j ∈ onDeleteEids
          (if st.hasOnDelete = true then [Event.onDelete eid k e.val] else []),
          j = eid := by
        by_cases hod : st.hasOnDelete = true
        · simp [hod, onDeleteEids]
        · simp [hod, onDeleteEids]
      refine ⟨?_, ?_, ?_, ?_, ?_, ?_⟩
      · intro p hp
        exact goodAt_set_flags st.heap eid e _ p.2 hg hflags
          (h.mapped p (mem_removeBinding p st.entries k hp).1)
      · exact mappedEids_remove_nodup st.entries k h.mappedNodup
      · intro j hj
        rw [onDeleteEids_append] at hj
        rw [List.length_set]
        rcases List.mem_append.1 hj with hj | hj
        · exact h.evBound j hj
        · cases hnewEv j hj
          exact (List.getElem?_eq_some.1 hg).1
      · intro j hj
        rw [onDeleteEids_append] at hj
        rcases List.mem_append.1 hj with hj | hj
        · exact goodAt_set_flags st.heap eid e _ j hg hflags (h.evGood j hj)
        · cases hnewEv j hj
          exact ⟨_, List.getElem?_set_self (List.getElem?_eq_some.1 hg).1, hd', herr'⟩
      · intro j hj hjmem
        rw [onDeleteEids_append] at hj
        have hjold : j ∈ st.entries.map (fun p => p.2) :=
          mem_mappedEids_remove st.entries k j hjmem
        rcases List.mem_append.1 hj with hj | hj
        · exact h.evUnmapped j hj hjold
        · cases hnewEv j hj
          obtain ⟨p, hp, hpe⟩ := List.mem_map.1 hjmem
          have hpq := mem_removeBinding p st.entries k hp
          have : p = (k, eid) :=
            List.inj_on_of_nodup_map h.mappedNodup hpq.1 hmem (by rw [hpe])
          exact hpq.2 (by rw [this])
      · rw [onDeleteEids_append]
        by_cases hod : st.hasOnDelete = true
        · have : onDeleteEids (K := K) (V := V)
              (if st.hasOnDelete = true then [Event.onDelete eid k e.val] else []) =
              [eid] := by simp [hod, onDeleteEids]
          rw [this]
          exact nodup_concat_nat _ eid h.evNodup fun hc => h.evUnmapped eid hc heidmap
        · have : onDeleteEids (K := K) (V := V)
              (if st.hasOnDelete = true then [Event.onDelete eid k e.val] else []) =
              [] := by simp [hod, onDeleteEids]
          rw [this, List.append_nil]
          exact h.evNodup

/-- `updateEnt` with a `done`/`err`-preserving mutation keeps the
invariant. -/
theorem seqInv_updateEnt (st : CacheState K V E) (evs : List (Event K V)) (eid : Nat)
    (f : Entity V E → Entity V E)
    (hf : ∀ e, (f e).done = e.done ∧ (f e).err = e.err)
    (h : SeqInv st evs) : SeqInv (updateEnt st eid f) evs := by
  unfold updateEnt
  match hg : st.heap[eid]? with
  | none => exact h
  | some e =>
    refine ⟨?_, h.mappedNodup, ?_, ?_, h.evUnmapped, h.evNodup⟩
    · intro p hp
      exact goodAt_set_flags st.heap eid e (f e) p.2 hg (hf e) (h.mapped p hp)
    · intro j hj
      rw [List.length_set]
      exact h.evBound j hj
    · intro j hj
      exact goodAt_set_flags st.heap eid e (f e) j hg (hf e) (h.evGood j hj)

theorem seqInv_loadOrCtor (st : CacheState K V E) (evs : List (Event K V))
    (ctx : Option (GoCtx C)) (k : K)
    (fn : Option (GoCtx C → K → V × Option (GoError E)))
    (h : SeqInv st evs) :
    SeqInv (loadOrCtor st ctx k fn).2.1 (evs ++ (loadOrCtor st ctx k fn).2.2) := by
  match fn with
  | none => simpa [loadOrCtor] using h
  | some f =>
    match hl : lookupKey st k with
    | some eid =>
      match hg : st.heap[eid]? with
      | some e =>
        rw [loadOrCtor_hit st ctx k f eid e hl hg]
        simpa using h
      | none =>
        rw [loadOrCtor_hit_dangling st ctx k f eid hl hg]
        simpa using h
    | none =>
      have hgf : (st.heap ++ [freshEntity V E])[st.heap.length]? =
          some (freshEntity V E) := List.getElem?_concat_length _ _
      have hevs : onDeleteEids (evs ++ [Event.ctorCall st.heap.length k]) =
          onDeleteEids evs := by
        rw [onDeleteEids_append]
        simp [onDeleteEids]
      have hmapLt : ∀ j ∈ st.entries.map (fun p => p.2), j < st.heap.length := by
        intro j hj
        obtain ⟨p, hp, hpe⟩ := List.mem_map.1 hj
        exact hpe ▸ goodAt_lt st.heap p.2 (h.mapped p hp)
      have hlenNotMem : st.heap.length ∉ (removeBinding st.entries k).map (fun p => p.2) := by
        intro hc
        exact absurd (hmapLt _ (mem_mappedEids_remove st.entries k _ hc))
          (Nat.lt_irrefl _)
      have hinsNodup :
          ((insertBinding st.entries k st.heap.length).map (fun p => p.2)).Nodup := by
        rw [insertBinding, List.map_cons]
        exact List.nodup_cons.2 ⟨hlenNotMem, mappedEids_remove_nodup st.entries k h.mappedNodup⟩
      have hGAr : ∀ p ∈ removeBinding st.entries k, GoodAt st.heap p.2 := by
        intro p hp
        exact h.mapped p (mem_removeBinding p st.entries k hp).1
      rw [loadOrCtor_miss st ctx k f hl]
      dsimp only
      match hres : f (ctx.getD GoCtx.background) k with
      | (rv, some er) =>
        rw [loadOrCtorFinish_err _ k st.heap.length (freshEntity V E) rv er hgf]
        refine ⟨?_, ?_, ?_, ?_, ?_, ?_⟩
        · intro p hp
          have hp1 := mem_removeBinding p _ k hp
          rcases List.mem_cons.1 hp1.1 with hc | hc
          · exact absurd (congrArg Prod.fst hc) hp1.2
          · have hGA := hGAr p hc
            have hlt := goodAt_lt st.heap p.2 hGA
            exact goodAt_set_ne _ st.heap.length _ p.2 (Nat.ne_of_lt hlt).symm
              (goodAt_append st.heap _ p.2 hGA)
        · exact mappedEids_remove_nodup _ k hinsNodup
        · intro j hj
          rw [hevs] at hj
          have := h.evBound j hj
          simp only [List.length_set, List.length_append, List.length_singleton]
          exact Nat.lt_succ_of_lt this
        · intro j hj
          rw [hevs] at hj
          have hlt := h.evBound j hj
          exact goodAt_set_ne _ st.heap.length _ j (Nat.ne_of_lt hlt).symm
            (goodAt_append st.heap _ j (h.evGood j hj))
        · intro j hj hjm
          rw [hevs] at hj
          have hlt := h.evBound j hj
          have hjm2 := mem_mappedEids_remove _ k j hjm
          rw [insertBinding, List.map_cons] at hjm2
          rcases List.mem_cons.1 hjm2 with hc | hc
          · exact absurd hc (Nat.ne_of_lt hlt)
          · exact h.evUnmapped j hj (mem_mappedEids_remove st.entries k j hc)
        · rw [hevs]
          exact h.evNodup
      | (rv, none) =>
        rw [loadOrCtorFinish_ok _ k st.heap.length (freshEntity V E) rv hgf]
        dsimp only
        have hE2 : ∀ e2 : Entity V E,
            e2 = (if st.lifetime ≠ 0 then
                { freshEntity V E with val := rv, err := none, hasTimer := true
                                       watcher := true, done := true }
              else { freshEntity V E with val := rv, err := none, done := true }) →
            e2.done = true ∧ e2.err = none := by
          intro e2 he2
          by_cases hlife : st.lifetime ≠ 0
          · rw [he2, if_pos hlife]
            exact ⟨rfl, rfl⟩
          · rw [he2, if_neg hlife]
            exact ⟨rfl, rfl⟩
        refine ⟨?_, hinsNodup, ?_, ?_, ?_, ?_⟩
        · intro p hp
          rcases List.mem_cons.1 hp with hc | hc
          · rw [hc]
            refine ⟨_, List.getElem?_set_self (by simp), hE2 _ rfl⟩
          · have hGA := hGAr p hc
            have hlt := goodAt_lt st.heap p.2 hGA
            exact goodAt_set_ne _ st.heap.length _ p.2 (Nat.ne_of_lt hlt).symm
              (goodAt_append st.heap _ p.2 hGA)
        · intro j hj
          rw [hevs] at hj
          have := h.evBound j hj
          simp only [List.length_set, List.length_append, List.length_singleton]
          exact Nat.lt_succ_of_lt this
        · intro j hj
          rw [hevs] at hj
          have hlt := h.evBound j hj
          exact goodAt_set_ne _ st.heap.length _ j (Nat.ne_of_lt hlt).symm
            (goodAt_append st.heap _ j (h.evGood j hj))
        · intro j hj hjm
          rw [hevs] at hj
          have hlt := h.evBound j hj
          rw [insertBinding, List.map_cons] at hjm
          rcases List.mem_cons.1 hjm with hc | hc
          · exact absurd hc (Nat.ne_of_lt hlt)
          · exact h.evUnmapped j hj (mem_mappedEids_remove st.entries k j hc)
        · rw [hevs]
          exact h.evNodup

/-- Every single operation preserves the invariant of sequential runs. -/
theorem seqInv_runOp (st : CacheState K V E) (evs : List (Event K V)) (op : Op K V E C)
    (h : SeqInv st evs) : SeqInv (runOp st op).1 (evs ++ (runOp st op).2) := by
  match op with
  | Op.load ctx k fn => exact seqInv_loadOrCtor st evs ctx k fn h
  | Op.del k => exact seqInv_deleteKey st evs k h
  | Op.fire k eid =>
    match hg : st.heap[eid]? with
    | none =>
      simp only [runOp, hg]
      simpa using h
    | some e =>
      by_cases hcond : (e.hasTimer && e.watcher && !e.cancelled) = true
      · simp only [runOp, hg, hcond, if_pos]
        exact seqInv_updateEnt _ _ eid _ (fun e2 => ⟨rfl, rfl⟩)
          (seqInv_deleteKey st evs k h)
      · simp only [runOp, hg, hcond, if_neg]
        simpa using h
  | Op.watchExit eid =>
    match hg : st.heap[eid]? with
    | none =>
      simp only [runOp, hg]
      simpa using h
    | some e =>
      by_cases hcond : (e.cancelled && e.watcher) = true
      · simp only [runOp, hg, hcond, if_pos]
        rw [List.append_nil]
        exact seqInv_updateEnt st evs eid
          (fun e2 => { e2 with watcher := false }) (fun e2 => ⟨rfl, rfl⟩) h
      · simp only [runOp, hg, hcond, if_neg]
        simpa using h

/-- The invariant holds along every sequential run. -/
theorem seqInv_run (ops : List (Op K V E C)) (st : CacheState K V E)
    (evs : List (Event K V)) (h : SeqInv st evs) :
    SeqInv (run st ops).1 (evs ++ (run st ops).2) := by
  induction ops generalizing st evs with
  | nil => simpa [run] using h
  | cons op ops ih =>
    simp only [run]
    have := ih (runOp st op).1 (evs ++ (runOp st op).2) (seqInv_runOp st evs op h)
    rwa [List.append_assoc] at this

theorem seqInv_init (L : Nat) (hod : Bool) :
    SeqInv (initCache K V E L hod) ([] : List (Event K V)) :=
  ⟨fun p hp => absurd hp (List.not_mem_nil p), List.nodup_nil,
   fun j hj => absurd hj (List.not_mem_nil j),
   fun j hj => absurd hj (List.not_mem_nil j),
   fun j hj => absurd hj (List.not_mem_nil j), List.nodup_nil⟩

/-- C4: along every sequential run, each `OnDelete` event names a distinct
entity (the callback fires at most once per entity lifetime), and every
entity it fires for is completed and error-free — it was successfully
constructed, never a failed construction; moreover each `Delete` of a
present entry fires the callback exactly once, with the entry's value,
and in a state from which the entry has already been removed (lazymap.go
lines 83–90 and 107–123). -/
theorem c4_ondelete_exactly_once (L : Nat) (hod : Bool) (ops : List (Op K V E C)) :
    (onDeleteEids (run (initCache K V E L hod) ops).2).Nodup ∧
    (∀ eid ∈ onDeleteEids (run (initCache K V E L hod) ops).2,
       GoodAt (run (initCache K V E L hod) ops).1.heap eid) ∧
    (∀ (st : CacheState K V E) (k : K) (eid : Nat) (e : Entity V E),
       st.hasOnDelete = true → lookupKey st k = some eid → st.heap[eid]? = some e →
       (deleteKey st k).2 = [Event.onDelete eid k e.val] ∧
       lookupKey (deleteKey st k).1 k = none) := by
  have hrun := seqInv_run ops (initCache K V E L hod) [] (seqInv_init L hod)
  rw [List.nil_append] at hrun
  refine ⟨hrun.evNodup, hrun.evGood, ?_⟩
  intro st k eid e hod2 hl hg
  rw [deleteKey_present st k eid e hl hg]
  dsimp only
  exact ⟨by simp [hod2], by simp [lookupKey, lookupL_remove_self]⟩

/-- C4 witness: a run that loads key `1` and deletes it produces a
duplicate-free list of `OnDelete` events, and deleting the live key `1` of
`hitState` fires the callback exactly once with its value `5`, with the key
already absent. -/
theorem c4_ondelete_exactly_once_witness :
    (onDeleteEids (run (initCache Nat Nat Unit 1 true)
        [Op.load none 1 (some ctorA), Op.del 1]).2).Nodup ∧
    (deleteKey hitState 1).2 = [Event.onDelete 0 1 5] ∧
    lookupKey (deleteKey hitState 1).1 1 = none :=
  ⟨(c4_ondelete_exactly_once 1 true [Op.load none 1 (some ctorA), Op.del 1]).1,
   ((c4_ondelete_exactly_once (K := Nat) (V := Nat) (E := Unit) (C := Unit)
        1 true []).2.2 hitState 1 0
      { val := 5, err := none, hasTimer := false, cancelled := false
        done := true, watcher := false } (by decide) (by decide) (by decide)).1,
   ((c4_ondelete_exactly_once (K := Nat) (V := Nat) (E := Unit) (C := Unit)
        1 true []).2.2 hitState 1 0
      { val := 5, err := none, hasTimer := false, cancelled := false
        done := true, watcher := false } (by decide) (by decide) (by decide)).2⟩

/-! ## Concurrent coalescing model (claim C1)

`LoadOrCtor` for one fixed key, decomposed into its atomic sections at the
exact points where `m.mu` is released (lazymap.go lines 60–95).  Any number
of threads run the decomposition concurrently; `CStep` is one atomic step
of one thread, and `Reach` closes it under interleaving.  `Map.Delete`'s
effect on the binding (also reached through the expiry watcher) is the
`del` step, so the theorem covers runs with concurrent deletions. -/

namespace Co

/-- The per-generation entity as seen by the coalescing argument: the
write-once result pair, the completion flag (`wg`), and the number of times
the constructor has been invoked for this generation (a proof artefact —
the Go code has no such counter). -/
structure CEntity (V E : Type) where
  val : V
  err : Option (GoError E)
  done : Bool
  invoked : Nat
deriving DecidableEq

/-- The control point of one `LoadOrCtor` caller.  `start`: before the
first lock acquisition.  `ctorReady eid`: inserted a fresh entity `eid` and
released the lock; about to run the constructor (lines 74–79).  `ctorDone
eid`: the constructor returned and the pair is written (line 81).
`errDeleted eid`: the error path removed the binding (lines 83–86).
`waiting eid`: saw a hit and blocks in `e.wg.Wait()` (line 70).
`returned eid v er`: the call returned `(v, er)`. -/
inductive CPhase (V E : Type) where
  | start
  | ctorReady (eid : Nat)
  | ctorDone (eid : Nat)
  | errDeleted (eid : Nat)
  | waiting (eid : Nat)
  | returned (eid : Nat) (v : V) (er : Option (GoError E))
deriving DecidableEq

/-- Global state: the heap of generations of the one key, the current
binding `m.m[key]` (`cur`), and the phase of every thread. -/
structure CState (V E : Type) where
  heap : List (CEntity V E)
  cur : Option Nat
  threads : List (CPhase V E)
deriving DecidableEq

/-- A freshly allocated generation: zero value, nil error, not completed,
constructor not yet invoked (lazymap.go line 74). -/
def cfresh (V E : Type) [Inhabited V] : CEntity V E :=
  { val := default, err := none, done := false, invoked := 0 }

/-- `n` threads about to call `LoadOrCtor` on the absent key. -/
def cinit (V E : Type) (n : Nat) : CState V E :=
  { heap := [], cur := none, threads := List.replicate n CPhase.start }

/-- One atomic step of one thread.  `hit`/`miss` are the first critical
section (lines 60–79: lookup, and on a miss the fresh insert, under one
lock acquisition); `invoke` is the constructor call outside the lock
(line 81); `errDelete` is the error path's locked deletion (lines 83–86);
`wgDoneErr`/`wgDoneOk` are `wg.Done()` plus return (lines 92–94); `wait`
is a hit caller passing `wg.Wait()` and returning (lines 70–71); `del` is
the binding removal of `Map.Delete` (line 119), which may interleave
arbitrarily. -/
inductive CStep {V E : Type} [Inhabited V] : CState V E → CState V E → Prop where
  | hit (s : CState V E) (t eid : Nat)
      (ht : s.threads[t]? = some CPhase.start) (hc : s.cur = some eid) :
      CStep s { s with threads := s.threads.set t (CPhase.waiting eid) }
  | miss (s : CState V E) (t : Nat)
      (ht : s.threads[t]? = some CPhase.start) (hc : s.cur = none) :
      CStep s { heap := s.heap ++ [cfresh V E]
                cur := some s.heap.length
                threads := s.threads.set t (CPhase.ctorReady s.heap.length) }
  | invoke (s : CState V E) (t eid : Nat) (e : CEntity V E) (v : V)
      (er : Option (GoError E))
      (ht : s.threads[t]? = some (CPhase.ctorReady eid))
      (he : s.heap[eid]? = some e) :
      CStep s { s with
                heap := s.heap.set eid
                  { e with val := v, err := er, invoked := e.invoked + 1 }
                threads := s.threads.set t (CPhase.ctorDone eid) }
  | errDelete (s : CState V E) (t eid : Nat) (e : CEntity V E) (er : GoError E)
      (ht : s.threads[t]? = some (CPhase.ctorDone eid))
      (he : s.heap[eid]? = some e) (herr : e.err = some er) :
      CStep s { s with cur := none
                       threads := s.threads.set t (CPhase.errDeleted eid) }
  | wgDoneErr (s : CState V E) (t eid : Nat) (e : CEntity V E)
      (ht : s.threads[t]? = some (CPhase.errDeleted eid))
      (he : s.heap[eid]? = some e) :
      CStep s { s with heap := s.heap.set eid { e with done := true }
                       threads := s.threads.set t (CPhase.returned eid e.val e.err) }
  | wgDoneOk (s : CState V E) (t eid : Nat) (e : CEntity V E)
      (ht : s.threads[t]? = some (CPhase.ctorDone eid))
      (he : s.heap[eid]? = some e) (herr : e.err = none) :
      CStep s { s with heap := s.heap.set eid { e with done := true }
                       threads := s.threads.set t (CPhase.returned eid e.val e.err) }
  | wait (s : CState V E) (t eid : Nat) (e : CEntity V E)
      (ht : s.threads[t]? = some (CPhase.waiting eid))
      (he : s.heap[eid]? = some e) (hd : e.done = true) :
      CStep s { s with threads := s.threads.set t (CPhase.returned eid e.val e.err) }
  | del (s : CState V E) (eid : Nat) (hc : s.cur = some eid) :
      CStep s { s with cur := none }

/-- Interleavings: reflexive-transitive closure of `CStep`. -/
inductive Reach {V E : Type} [Inhabited V] : CState V E → CState V E → Prop where
  | refl (s : CState V E) : Reach s s
  | step (s1 s2 s3 : CState V E) : Reach s1 s2 → CStep s2 s3 → Reach s1 s3

/-- The generation a phase refers to, if any. -/
def eidOf : CPhase V E → Option Nat
  | CPhase.start => none
  | CPhase.ctorReady eid => some eid
  | CPhase.ctorDone eid => some eid
  | CPhase.errDeleted eid => some eid
  | CPhase.waiting eid => some eid
  | CPhase.returned eid _ _ => some eid

/-- A phase that holds the construction of generation `eid`: it inserted
the fresh entity and has not yet signalled completion. -/
def Owner (ph : CPhase V E) (eid : Nat) : Prop :=
  ph = CPhase.ctorReady eid ∨ ph = CPhase.ctorDone eid ∨ ph = CPhase.errDeleted eid

/-- Some thread of the pool `T` currently holds the construction of
generation `eid`. -/
def HasOwnerT (T : List (CPhase V E)) (eid : Nat) : Prop :=
  ∃ (t : Nat) (ph : CPhase V E), T[t]? = some ph ∧ Owner ph eid

/-- The lifecycle of one generation: not yet invoked with a `ctorReady`
holder; invoked once with a `ctorDone` or `errDeleted` holder; or completed
(invoked once, `done`, no holder). -/
def EntStatusT (T : List (CPhase V E)) (eid : Nat) (e : CEntity V E) : Prop :=
  ((∃ t : Nat, T[t]? = some (CPhase.ctorReady eid)) ∧
     e.invoked = 0 ∧ e.done = false) ∨
  ((∃ t : Nat, T[t]? = some (CPhase.ctorDone eid) ∨
         T[t]? = some (CPhase.errDeleted eid)) ∧
     e.invoked = 1 ∧ e.done = false) ∨
  (e.invoked = 1 ∧ e.done = true ∧ ¬ HasOwnerT T eid)

/-- The inductive invariant of the coalescing protocol. -/
structure CInv (s : CState V E) : Prop where
  curBound : ∀ eid : Nat, s.cur = some eid → eid < s.heap.length
  refBound : ∀ (t : Nat) (ph : CPhase V E), s.threads[t]? = some ph →
    ∀ eid : Nat, eidOf ph = some eid → eid < s.heap.length
  ownerUnique : ∀ (t1 t2 : Nat) (ph1 ph2 : CPhase V E) (eid : Nat),
    s.threads[t1]? = some ph1 →
    s.threads[t2]? = some ph2 → Owner ph1 eid → Owner ph2 eid → t1 = t2
  entInv : ∀ (eid : Nat) (e : CEntity V E), s.heap[eid]? = some e →
    EntStatusT s.threads eid e
  retInv : ∀ (t eid : Nat) (v : V) (er : Option (GoError E)),
    s.threads[t]? = some (CPhase.returned eid v er) →
    ∃ e : CEntity V E, s.heap[eid]? = some e ∧ e.done = true ∧ v = e.val ∧ er = e.err

theorem cinv_init (n : Nat) : CInv (cinit V E n) := by
  refine ⟨?_, ?_, ?_, ?_, ?_⟩
  · intro eid h
    cases h
  · intro t ph ht eid he
    have := List.getElem?_mem ht
    rw [List.eq_of_mem_replicate this] at he
    cases he
  · intro t1 t2 ph1 ph2 eid ht1 ht2 ho1 ho2
    have := List.getElem?_mem ht1
    rw [List.eq_of_mem_replicate this] at ho1
    rcases ho1 with h | h | h <;> cases h
  · intro eid e he
    cases eid <;> cases he
  · intro t eid v er ht
    have := List.getElem?_mem ht
    exact absurd (List.eq_of_mem_replicate this) (by intro h; cases h)

theorem owner_eidOf (ph : CPhase V E) (x : Nat) (h : Owner ph x) : eidOf ph = some x := by
  rcases h with h | h | h <;> subst h <;> rfl

theorem not_owner_start (y : Nat) : ¬ Owner (CPhase.start : CPhase V E) y := by
  intro h
  rcases h with h | h | h <;> cases h

theorem not_owner_waiting (x y : Nat) : ¬ Owner (CPhase.waiting x : CPhase V E) y := by
  intro h
  rcases h with h | h | h <;> cases h

theorem not_owner_returned (x : Nat) (v : V) (er : Option (GoError E)) (y : Nat) :
    ¬ Owner (CPhase.returned x v er) y := by
  intro h
  rcases h with h | h | h <;> cases h

theorem getElem?_lt_of_some {α : Type} (l : List α) (i : Nat) (a : α)
    (h : l[i]? = some a) : i < l.length := (List.getElem?_eq_some.1 h).1

/-- Replacing the phase of a thread that does not hold `eid` by another
phase that does not hold `eid` preserves the generation's status. -/
theorem entStatusT_set (T : List (CPhase V E)) (t : Nat) (phOld phNew : CPhase V E)
    (ht : T[t]? = some phOld) (eid : Nat) (e : CEntity V E)
    (hOld : ¬ Owner phOld eid) (hNew : ¬ Owner phNew eid)
    (hstat : EntStatusT T eid e) : EntStatusT (T.set t phNew) eid e := by
  rcases hstat with ⟨⟨t0, ht0⟩, hi, hd⟩ | ⟨⟨t0, ht0⟩, hi, hd⟩ | ⟨hi, hd, hno⟩
  · have hne : t ≠ t0 := by
      intro heq
      subst heq
      cases Option.some.inj (ht.symm.trans ht0)
      exact hOld (Or.inl rfl)
    exact Or.inl ⟨⟨t0, by rw [List.getElem?_set_ne hne]; exact ht0⟩, hi, hd⟩
  · have hne : t ≠ t0 := by
      intro heq
      subst heq
      rcases ht0 with ht0 | ht0
      · cases Option.some.inj (ht.symm.trans ht0)
        exact hOld (Or.inr (Or.inl rfl))
      · cases Option.some.inj (ht.symm.trans ht0)
        exact hOld (Or.inr (Or.inr rfl))
    refine Or.inr (Or.inl ⟨⟨t0, ?_⟩, hi, hd⟩)
    rcases ht0 with ht0 | ht0
    · exact Or.inl (by rw [List.getElem?_set_ne hne]; exact ht0)
    · exact Or.inr (by rw [List.getElem?_set_ne hne]; exact ht0)
  · refine Or.inr (Or.inr ⟨hi, hd, ?_⟩)
    rintro ⟨t1, ph1, ht1, ho1⟩
    by_cases hne : t = t1
    · subst hne
      by_cases hlt : t < T.length
      · rw [List.getElem?_set_self hlt] at ht1
        cases Option.some.inj ht1
        exact hNew ho1
      · rw [List.set_eq_of_length_le (Nat.le_of_not_lt hlt)] at ht1
        exact absurd (getElem?_lt_of_some T t ph1 ht1) hlt
    · rw [List.getElem?_set_ne hne] at ht1
      exact hno ⟨t1, ph1, ht1, ho1⟩

/-- A thread in `ctorReady eid` forces the generation to be un-invoked and
incomplete. -/
theorem status_of_ready (s : CState V E) (h : CInv s) (t eid : Nat) (e : CEntity V E)
    (ht : s.threads[t]? = some (CPhase.ctorReady eid)) (he : s.heap[eid]? = some e) :
    e.invoked = 0 ∧ e.done = false := by
  rcases h.entInv eid e he with ⟨⟨t0, ht0⟩, hi, hd⟩ | ⟨⟨t0, ht0⟩, hi, hd⟩ | ⟨hi, hd, hno⟩
  · exact ⟨hi, hd⟩
  · rcases ht0 with ht0 | ht0
    · cases h.ownerUnique t0 t _ _ eid ht0 ht (Or.inr (Or.inl rfl)) (Or.inl rfl)
      cases Option.some.inj (ht0.symm.trans ht)
    · cases h.ownerUnique t0 t _ _ eid ht0 ht (Or.inr (Or.inr rfl)) (Or.inl rfl)
      cases Option.some.inj (ht0.symm.trans ht)
  · exact absurd ⟨t, _, ht, Or.inl rfl⟩ hno

/-- A thread in `ctorDone eid` or `errDeleted eid` forces the generation to
be invoked exactly once and incomplete. -/
theorem status_of_holder (s : CState V E) (h : CInv s) (t eid : Nat) (e : CEntity V E)
    (ht : s.threads[t]? = some (CPhase.ctorDone eid) ∨
          s.threads[t]? = some (CPhase.errDeleted eid))
    (he : s.heap[eid]? = some e) : e.invoked = 1 ∧ e.done = false := by
  have hown : ∃ ph : CPhase V E, s.threads[t]? = some ph ∧ Owner ph eid := by
    rcases ht with ht | ht
    · exact ⟨_, ht, Or.inr (Or.inl rfl)⟩
    · exact ⟨_, ht, Or.inr (Or.inr rfl)⟩
  obtain ⟨ph, htp, hop⟩ := hown
  rcases h.entInv eid e he with ⟨⟨t0, ht0⟩, hi, hd⟩ | ⟨⟨t0, ht0⟩, hi, hd⟩ | ⟨hi, hd, hno⟩
  · cases h.ownerUnique t0 t _ _ eid ht0 htp (Or.inl rfl) hop
    rcases ht with ht | ht
    · cases Option.some.inj (ht0.symm.trans ht)
    · cases Option.some.inj (ht0.symm.trans ht)
  · exact ⟨hi, hd⟩
  · exact absurd ⟨t, ph, htp, hop⟩ hno

/-- `wg.Done()` by the construction holder: the entity completes, the
holder returns its pair, and the generation reaches its final status. -/
theorem cinv_wgDone (s : CState V E) (t eid : Nat) (e : CEntity V E) (h : CInv s)
    (ht : s.threads[t]? = some (CPhase.ctorDone eid) ∨
          s.threads[t]? = some (CPhase.errDeleted eid))
    (he : s.heap[eid]? = some e) :
    CInv { s with heap := s.heap.set eid { e with done := true }
                  threads := s.threads.set t (CPhase.returned eid e.val e.err) } := by
  obtain ⟨hi1, hd1⟩ := status_of_holder s h t eid e ht he
  obtain ⟨phOld, htp, hop⟩ : ∃ ph : CPhase V E, s.threads[t]? = some ph ∧ Owner ph eid := by
    rcases ht with ht | ht
    · exact ⟨_, ht, Or.inr (Or.inl rfl)⟩
    · exact ⟨_, ht, Or.inr (Or.inr rfl)⟩
  have hlt := getElem?_lt_of_some _ _ _ htp
  have helt := getElem?_lt_of_some _ _ _ he
  refine ⟨?_, ?_, ?_, ?_, ?_⟩
  · intro eid' h'
    dsimp only at h' ⊢
    rw [List.length_set]
    exact h.curBound eid' h'
  · intro t' ph' ht' eid' he'
    dsimp only at ht' ⊢
    rw [List.length_set]
    by_cases hne : t = t'
    · subst hne
      rw [List.getElem?_set_self hlt] at ht'
      cases Option.some.inj ht'
      cases Option.some.inj he'
      exact helt
    · rw [List.getElem?_set_ne hne] at ht'
      exact h.refBound t' ph' ht' eid' he'
  · intro t1 t2 ph1 ph2 eid' ht1 ht2 ho1 ho2
    dsimp only at ht1 ht2
    by_cases h1 : t = t1
    · subst h1
      rw [List.getElem?_set_self hlt] at ht1
      cases Option.some.inj ht1
      exact absurd ho1 (not_owner_returned eid e.val e.err eid')
    · rw [List.getElem?_set_ne h1] at ht1
      by_cases h2 : t = t2
      · subst h2
        rw [List.getElem?_set_self hlt] at ht2
        cases Option.some.inj ht2
        exact absurd ho2 (not_owner_returned eid e.val e.err eid')
      · rw [List.getElem?_set_ne h2] at ht2
        exact h.ownerUnique t1 t2 ph1 ph2 eid' ht1 ht2 ho1 ho2
  · intro eid' e' he'
    dsimp only at he' ⊢
    by_cases heq : eid = eid'
    · subst heq
      rw [List.getElem?_set_self helt] at he'
      cases Option.some.inj he'
      refine Or.inr (Or.inr ⟨hi1, rfl, ?_⟩)
      rintro ⟨t1, ph1, ht1, ho1⟩
      by_cases hne : t = t1
      · subst hne
        rw [List.getElem?_set_self hlt] at ht1
        cases Option.some.inj ht1
        exact not_owner_returned eid e.val e.err eid ho1
      · rw [List.getElem?_set_ne hne] at ht1
        exact hne (h.ownerUnique t t1 phOld ph1 eid htp ht1 hop ho1)
    · rw [List.getElem?_set_ne heq] at he'
      refine entStatusT_set s.threads t phOld (CPhase.returned eid e.val e.err)
        htp eid' e' ?_ (not_owner_returned eid e.val e.err eid') (h.entInv eid' e' he')
      intro ho
      exact heq (Option.some.inj
        ((owner_eidOf phOld eid hop).symm.trans (owner_eidOf phOld eid' ho)))
  · intro t' eid' v' er' ht'
    dsimp only at ht' ⊢
    by_cases hne : t = t'
    · subst hne
      rw [List.getElem?_set_self hlt] at ht'
      cases Option.some.inj ht'
      exact ⟨{ e with done := true }, List.getElem?_set_self helt, rfl, rfl, rfl⟩
    · rw [List.getElem?_set_ne hne] at ht'
      obtain ⟨e0, he0, hd0, hv0, her0⟩ := h.retInv t' eid' v' er' ht'
      by_cases heq : eid = eid'
      · subst heq
        cases he.symm.trans he0
        cases hd1.symm.trans hd0
      · exact ⟨e0, by rw [List.getElem?_set_ne heq]; exact he0, hd0, hv0, her0⟩

/-- Every step of the protocol preserves the invariant. -/
theorem cinv_step (s s' : CState V E) (h : CInv s) (hs : CStep s s') : CInv s' := by
  cases hs with
  | hit t eid ht hc =>
    have hlt := getElem?_lt_of_some _ _ _ ht
    refine ⟨?_, ?_, ?_, ?_, ?_⟩
    · exact h.curBound
    · intro t' ph' ht' eid' he'
      dsimp only at ht' ⊢
      by_cases hne : t = t'
      · subst hne
        rw [List.getElem?_set_self hlt] at ht'
        cases Option.some.inj ht'
        cases Option.some.inj he'
        exact h.curBound _ hc
      · rw [List.getElem?_set_ne hne] at ht'
        exact h.refBound t' ph' ht' eid' he'
    · intro t1 t2 ph1 ph2 eid' ht1 ht2 ho1 ho2
      dsimp only at ht1 ht2
      by_cases h1 : t = t1
      · subst h1
        rw [List.getElem?_set_self hlt] at ht1
        cases Option.some.inj ht1
        exact absurd ho1 (not_owner_waiting eid eid')
      · rw [List.getElem?_set_ne h1] at ht1
        by_cases h2 : t = t2
        · subst h2
          rw [List.getElem?_set_self hlt] at ht2
          cases Option.some.inj ht2
          exact absurd ho2 (not_owner_waiting eid eid')
        · rw [List.getElem?_set_ne h2] at ht2
          exact h.ownerUnique t1 t2 ph1 ph2 eid' ht1 ht2 ho1 ho2
    · intro eid' e' he'
      exact entStatusT_set s.threads t CPhase.start (CPhase.waiting eid) ht eid' e'
        (not_owner_start eid') (not_owner_waiting eid eid') (h.entInv eid' e' he')
    · intro t' eid' v' er' ht'
      dsimp only at ht' ⊢
      by_cases hne : t = t'
      · subst hne
        rw [List.getElem?_set_self hlt] at ht'
        cases Option.some.inj ht'
      · rw [List.getElem?_set_ne hne] at ht'
        exact h.retInv t' eid' v' er' ht'
  | miss t ht hc =>
    have hlt := getElem?_lt_of_some _ _ _ ht
    refine ⟨?_, ?_, ?_, ?_, ?_⟩
    · intro eid' h'
      dsimp only at h' ⊢
      cases Option.some.inj h'
      simp
    · intro t' ph' ht' eid' he'
      dsimp only at ht' ⊢
      rw [List.length_append, List.length_singleton]
      by_cases hne : t = t'
      · subst hne
        rw [List.getElem?_set_self hlt] at ht'
        cases Option.some.inj ht'
        cases Option.some.inj he'
        exact Nat.lt_succ_self _
      · rw [List.getElem?_set_ne hne] at ht'
        exact Nat.lt_succ_of_lt (h.refBound t' ph' ht' eid' he')
    · intro t1 t2 ph1 ph2 eid' ht1 ht2 ho1 ho2
      dsimp only at ht1 ht2
      by_cases h1 : t = t1
      · by_cases h2 : t = t2
        · exact h1.symm.trans h2
        · subst h1
          rw [List.getElem?_set_self hlt] at ht1
          cases Option.some.inj ht1
          have heq := Option.some.inj (owner_eidOf _ _ ho1)
          rw [List.getElem?_set_ne h2] at ht2
          have := h.refBound t2 ph2 ht2 _ (owner_eidOf _ _ ho2)
          rw [← heq] at this
          exact absurd this (Nat.lt_irrefl _)
      · by_cases h2 : t = t2
        · subst h2
          rw [List.getElem?_set_self hlt] at ht2
          cases Option.some.inj ht2
          have heq := Option.some.inj (owner_eidOf _ _ ho2)
          rw [List.getElem?_set_ne h1] at ht1
          have := h.refBound t1 ph1 ht1 _ (owner_eidOf _ _ ho1)
          rw [← heq] at this
          exact absurd this (Nat.lt_irrefl _)
        · rw [List.getElem?_set_ne h1] at ht1
          rw [List.getElem?_set_ne h2] at ht2
          exact h.ownerUnique t1 t2 ph1 ph2 eid' ht1 ht2 ho1 ho2
    · intro eid' e' he'
      dsimp only at he' ⊢
      by_cases hlt' : eid' < s.heap.length
      · rw [List.getElem?_append_left hlt'] at he'
        refine entStatusT_set s.threads t CPhase.start
          (CPhase.ctorReady s.heap.length) ht eid' e'
          (not_owner_start eid') ?_ (h.entInv eid' e' he')
        intro ho
        have := Option.some.inj (owner_eidOf _ _ ho)
        rw [← this] at hlt'
        exact absurd hlt' (Nat.lt_irrefl _)
      · by_cases heq : eid' = s.heap.length
        · subst heq
          rw [List.getElem?_concat_length] at he'
          cases Option.some.inj he'
          exact Or.inl ⟨⟨t, by rw [List.getElem?_set_self hlt]⟩, rfl, rfl⟩
        · have := getElem?_lt_of_some _ _ _ he'
          simp only [List.length_append, List.length_singleton] at this
          omega
    · intro t' eid' v' er' ht'
      dsimp only at ht' ⊢
      by_cases hne : t = t'
      · subst hne
        rw [List.getElem?_set_self hlt] at ht'
        cases Option.some.inj ht'
      · rw [List.getElem?_set_ne hne] at ht'
        obtain ⟨e0, he0, hd0, hv0, her0⟩ := h.retInv t' eid' v' er' ht'
        exact ⟨e0, by
          rw [List.getElem?_append_left (getElem?_lt_of_some _ _ _ he0)]
          exact he0, hd0, hv0, her0⟩
  | invoke t eid e v er ht he =>
    have hlt := getElem?_lt_of_some _ _ _ ht
    have helt := getElem?_lt_of_some _ _ _ he
    obtain ⟨hi0, hd0⟩ := status_of_ready s h t eid e ht he
    refine ⟨?_, ?_, ?_, ?_, ?_⟩
    · intro eid' h'
      dsimp only at h' ⊢
      rw [List.length_set]
      exact h.curBound eid' h'
    · intro t' ph' ht' eid' he'
      dsimp only at ht' ⊢
      rw [List.length_set]
      by_cases hne : t = t'
      · subst hne
        rw [List.getElem?_set_self hlt] at ht'
        cases Option.some.inj ht'
        cases Option.some.inj he'
        exact helt
      · rw [List.getElem?_set_ne hne] at ht'
        exact h.refBound t' ph' ht' eid' he'
    · intro t1 t2 ph1 ph2 eid' ht1 ht2 ho1 ho2
      dsimp only at ht1 ht2
      by_cases h1 : t = t1
      · by_cases h2 : t = t2
        · exact h1.symm.trans h2
        · subst h1
          rw [List.getElem?_set_self hlt] at ht1
          cases Option.some.inj ht1
          have heq := Option.some.inj (owner_eidOf _ _ ho1)
          subst heq
          rw [List.getElem?_set_ne h2] at ht2
          exact h.ownerUnique t t2 (CPhase.ctorReady eid) ph2 eid ht ht2 (Or.inl rfl) ho2
      · by_cases h2 : t = t2
        · subst h2
          rw [List.getElem?_set_self hlt] at ht2
          cases Option.some.inj ht2
          have heq := Option.some.inj (owner_eidOf _ _ ho2)
          subst heq
          rw [List.getElem?_set_ne h1] at ht1
          exact (h.ownerUnique t t1 (CPhase.ctorReady eid) ph1 eid ht ht1
            (Or.inl rfl) ho1).symm
        · rw [List.getElem?_set_ne h1] at ht1
          rw [List.getElem?_set_ne h2] at ht2
          exact h.ownerUnique t1 t2 ph1 ph2 eid' ht1 ht2 ho1 ho2
    · intro eid' e' he'
      dsimp only at he' ⊢
      by_cases heq : eid = eid'
      · subst heq
        rw [List.getElem?_set_self helt] at he'
        cases Option.some.inj he'
        refine Or.inr (Or.inl ⟨⟨t, Or.inl (by rw [List.getElem?_set_self hlt])⟩, ?_, hd0⟩)
        dsimp only
        rw [hi0]
      · rw [List.getElem?_set_ne heq] at he'
        refine entStatusT_set s.threads t (CPhase.ctorReady eid) (CPhase.ctorDone eid)
          ht eid' e' ?_ ?_ (h.entInv eid' e' he')
        · intro ho
          exact heq (Option.some.inj (owner_eidOf _ _ ho))
        · intro ho
          exact heq (Option.some.inj (owner_eidOf _ _ ho))
    · intro t' eid' v' er' ht'
      dsimp only at ht' ⊢
      by_cases hne : t = t'
      · subst hne
        rw [List.getElem?_set_self hlt] at ht'
        cases Option.some.inj ht'
      · rw [List.getElem?_set_ne hne] at ht'
        obtain ⟨e0, he0, hd0r, hv0, her0⟩ := h.retInv t' eid' v' er' ht'
        by_cases heq : eid = eid'
        · subst heq
          cases he.symm.trans he0
          cases hd0.symm.trans hd0r
        · exact ⟨e0, by rw [List.getElem?_set_ne heq]; exact he0, hd0r, hv0, her0⟩
  | errDelete t eid e er ht he herr =>
    have hlt := getElem?_lt_of_some _ _ _ ht
    obtain ⟨hi1, hd1⟩ := status_of_holder s h t eid e (Or.inl ht) he
    refine ⟨?_, ?_, ?_, ?_, ?_⟩
    · intro eid' h'
      cases h'
    · intro t' ph' ht' eid' he'
      dsimp only at ht' ⊢
      by_cases hne : t = t'
      · subst hne
        rw [List.getElem?_set_self hlt] at ht'
        cases Option.some.inj ht'
        cases Option.some.inj he'
        exact getElem?_lt_of_some _ _ _ he
      · rw [List.getElem?_set_ne hne] at ht'
        exact h.refBound t' ph' ht' eid' he'
    · intro t1 t2 ph1 ph2 eid' ht1 ht2 ho1 ho2
      dsimp only at ht1 ht2
      by_cases h1 : t = t1
      · by_cases h2 : t = t2
        · exact h1.symm.trans h2
        · subst h1
          rw [List.getElem?_set_self hlt] at ht1
          cases Option.some.inj ht1
          have heq := Option.some.inj (owner_eidOf _ _ ho1)
          subst heq
          rw [List.getElem?_set_ne h2] at ht2
          exact h.ownerUnique t t2 (CPhase.ctorDone eid) ph2 eid ht ht2
            (Or.inr (Or.inl rfl)) ho2
      · by_cases h2 : t = t2
        · subst h2
          rw [List.getElem?_set_self hlt] at ht2
          cases Option.some.inj ht2
          have heq := Option.some.inj (owner_eidOf _ _ ho2)
          subst heq
          rw [List.getElem?_set_ne h1] at ht1
          exact (h.ownerUnique t t1 (CPhase.ctorDone eid) ph1 eid ht ht1
            (Or.inr (Or.inl rfl)) ho1).symm
        · rw [List.getElem?_set_ne h1] at ht1
          rw [List.getElem?_set_ne h2] at ht2
          exact h.ownerUnique t1 t2 ph1 ph2 eid' ht1 ht2 ho1 ho2
    · intro eid' e' he'
      dsimp only at he' ⊢
      by_cases heq : eid = eid'
      · subst heq
        cases he.symm.trans he'
        exact Or.inr (Or.inl ⟨⟨t, Or.inr (by rw [List.getElem?_set_self hlt])⟩, hi1, hd1⟩)
      · refine entStatusT_set s.threads t (CPhase.ctorDone eid) (CPhase.errDeleted eid)
          ht eid' e' ?_ ?_ (h.entInv eid' e' he')
        · intro ho
          exact heq (Option.some.inj (owner_eidOf _ _ ho))
        · intro ho
          exact heq (Option.some.inj (owner_eidOf _ _ ho))
    · intro t' eid' v' er' ht'
      dsimp only at ht' ⊢
      by_cases hne : t = t'
      · subst hne
        rw [List.getElem?_set_self hlt] at ht'
        cases Option.some.inj ht'
      · rw [List.getElem?_set_ne hne] at ht'
        exact h.retInv t' eid' v' er' ht'
  | wgDoneErr t eid e ht he =>
    exact cinv_wgDone s t eid e h (Or.inr ht) he
  | wgDoneOk t eid e ht he herr =>
    exact cinv_wgDone s t eid e h (Or.inl ht) he
  | wait t eid e ht he hd =>
    have hlt := getElem?_lt_of_some _ _ _ ht
    refine ⟨?_, ?_, ?_, ?_, ?_⟩
    · exact h.curBound
    · intro t' ph' ht' eid' he'
      dsimp only at ht' ⊢
      by_cases hne : t = t'
      · subst hne
        rw [List.getElem?_set_self hlt] at ht'
        cases Option.some.inj ht'
        cases Option.some.inj he'
        exact getElem?_lt_of_some _ _ _ he
      · rw [List.getElem?_set_ne hne] at ht'
        exact h.refBound t' ph' ht' eid' he'
    · intro t1 t2 ph1 ph2 eid' ht1 ht2 ho1 ho2
      dsimp only at ht1 ht2
      by_cases h1 : t = t1
      · subst h1
        rw [List.getElem?_set_self hlt] at ht1
        cases Option.some.inj ht1
        exact absurd ho1 (not_owner_returned eid e.val e.err eid')
      · rw [List.getElem?_set_ne h1] at ht1
        by_cases h2 : t = t2
        · subst h2
          rw [List.getElem?_set_self hlt] at ht2
          cases Option.some.inj ht2
          exact absurd ho2 (not_owner_returned eid e.val e.err eid')
        · rw [List.getElem?_set_ne h2] at ht2
          exact h.ownerUnique t1 t2 ph1 ph2 eid' ht1 ht2 ho1 ho2
    · intro eid' e' he'
      exact entStatusT_set s.threads t (CPhase.waiting eid)
        (CPhase.returned eid e.val e.err) ht eid' e'
        (not_owner_waiting eid eid') (not_owner_returned eid e.val e.err eid')
        (h.entInv eid' e' he')
    · intro t' eid' v' er' ht'
      dsimp only at ht' ⊢
      by_cases hne : t = t'
      · subst hne
        rw [List.getElem?_set_self hlt] at ht'
        cases Option.some.inj ht'
        exact ⟨e, he, hd, rfl, rfl⟩
      · rw [List.getElem?_set_ne hne] at ht'
        exact h.retInv t' eid' v' er' ht'
  | del eid hc =>
    refine ⟨?_, h.refBound, h.ownerUnique, h.entInv, h.retInv⟩
    intro eid' h'
    cases h'

/-- The invariant holds in every reachable state. -/
theorem cinv_reach (n : Nat) (s : CState V E) (h : Reach (cinit V E n) s) : CInv s := by
  induction h with
  | refl => exact cinv_init n
  | step s2 s3 hr hs ih => exact cinv_step s2 s3 ih hs

/-- C1: coalescing guarantee.  In every state reachable by any interleaving
of any number of `LoadOrCtor` callers (and concurrent deletions) on one
key: (i) no generation's constructor has been invoked more than once;
(ii) no two distinct threads are simultaneously about to invoke (or
invoking) the constructor of the same generation; (iii) every caller that
has returned via generation `eid` did so after exactly one invocation for
`eid` and carries exactly the entity's write-once `(value, error)` pair;
hence (iv) any two callers that returned via the same generation returned
the identical pair (lazymap.go lines 60–95). -/
theorem c1_coalescing (n : Nat) (s : CState V E) (h : Reach (cinit V E n) s) :
    (∀ (eid : Nat) (e : CEntity V E), s.heap[eid]? = some e → e.invoked ≤ 1) ∧
    (∀ t1 t2 eid : Nat, s.threads[t1]? = some (CPhase.ctorReady eid) →
       s.threads[t2]? = some (CPhase.ctorReady eid) → t1 = t2) ∧
    (∀ (t eid : Nat) (v : V) (er : Option (GoError E)),
       s.threads[t]? = some (CPhase.returned eid v er) →
       ∃ e : CEntity V E, s.heap[eid]? = some e ∧ e.invoked = 1 ∧
         v = e.val ∧ er = e.err) ∧
    (∀ (t1 t2 eid : Nat) (v1 v2 : V) (er1 er2 : Option (GoError E)),
       s.threads[t1]? = some (CPhase.returned eid v1 er1) →
       s.threads[t2]? = some (CPhase.returned eid v2 er2) →
       v1 = v2 ∧ er1 = er2) := by
  have hc := cinv_reach n s h
  have hret : ∀ (t eid : Nat) (v : V) (er : Option (GoError E)),
      s.threads[t]? = some (CPhase.returned eid v er) →
      ∃ e : CEntity V E, s.heap[eid]? = some e ∧ e.invoked = 1 ∧
        v = e.val ∧ er = e.err := by
    intro t eid v er ht
    obtain ⟨e, he, hd, hv, her⟩ := hc.retInv t eid v er ht
    refine ⟨e, he, ?_, hv, her⟩
    rcases hc.entInv eid e he with ⟨-, -, hd2⟩ | ⟨-, -, hd2⟩ | ⟨hi, -, -⟩
    · cases hd.symm.trans hd2
    · cases hd.symm.trans hd2
    · exact hi
  refine ⟨?_, ?_, hret, ?_⟩
  · intro eid e he
    rcases hc.entInv eid e he with ⟨-, hi, -⟩ | ⟨-, hi, -⟩ | ⟨hi, -, -⟩ <;> omega
  · intro t1 t2 eid ht1 ht2
    exact hc.ownerUnique t1 t2 _ _ eid ht1 ht2 (Or.inl rfl) (Or.inl rfl)
  · intro t1 t2 eid v1 v2 er1 er2 ht1 ht2
    obtain ⟨e1, he1, -, hv1, her1⟩ := hret t1 eid v1 er1 ht1
    obtain ⟨e2, he2, -, hv2, her2⟩ := hret t2 eid v2 er2 ht2
    cases he1.symm.trans he2
    exact ⟨hv1.trans hv2.symm, her1.trans her2.symm⟩

/-- A final state of a two-thread race: thread 0 misses and constructs
`42`; thread 1 hits the pending entry, waits, and returns the same pair. -/
def cfinal : CState Nat Unit :=
  { heap := [{ val := 42, err := none, done := true, invoked := 1 }]
    cur := some 0
    threads := [CPhase.returned 0 42 none, CPhase.returned 0 42 none] }

theorem cfinal_reachable : Reach (cinit Nat Unit 2) cfinal := by
  have h0 : Reach (cinit Nat Unit 2) (cinit Nat Unit 2) := Reach.refl _
  have h1 := Reach.step _ _ _ h0 (CStep.miss (cinit Nat Unit 2) 0 rfl rfl)
  have h2 := Reach.step _ _ _ h1 (CStep.hit _ 1 0 rfl rfl)
  have h3 := Reach.step _ _ _ h2 (CStep.invoke _ 0 0 (cfresh Nat Unit) 42 none rfl rfl)
  have h4 := Reach.step _ _ _ h3
    (CStep.wgDoneOk _ 0 0 ⟨42, none, false, 1⟩ rfl rfl rfl)
  have h5 := Reach.step _ _ _ h4 (CStep.wait _ 1 0 ⟨42, none, true, 1⟩ rfl rfl rfl)
  exact h5

/-- C1 witness: in the concrete two-thread race `cfinal`, the constructor
ran exactly once and both callers returned the identical pair. -/
theorem c1_coalescing_witness :
    (∀ (eid : Nat) (e : CEntity Nat Unit), cfinal.heap[eid]? = some e →
       e.invoked ≤ 1) ∧
    (∀ (t1 t2 eid : Nat) (v1 v2 : Nat) (er1 er2 : Option (GoError Unit)),
       cfinal.threads[t1]? = some (CPhase.returned eid v1 er1) →
       cfinal.threads[t2]? = some (CPhase.returned eid v2 er2) →
       v1 = v2 ∧ er1 = er2) :=
  ⟨(c1_coalescing 2 cfinal cfinal_reachable).1,
   (c1_coalescing 2 cfinal cfinal_reachable).2.2.2⟩

end Co

end LazyMap
